import Mathlib

/-!
Verification of the AVL key-value tree of `KeyValueAVLTree.hpp` and the
record-loading routine of `sistema_recomendador_AVL.cpp`, as a shallow
embedding: pointers to `KeyValueAVLNode` become an inductive type whose
`nil` constructor models `nullptr`, the cached `int height` member becomes
an explicit `Int` field, and the recursive member functions become
structurally recursive Lean functions.
-/

namespace KeyValueAVL

/-- A (possibly null) pointer to a `KeyValueAVLNode<Key, Value>`: `nil` models
`nullptr`, and `node key value height left right` models a node with its data
members in declaration order.  The `height` argument is the cached `int height`
field of the C++ struct, not a recomputed quantity. -/
inductive Tree (K V : Type) where
  | nil : Tree K V
  | node (key : K) (value : V) (height : Int) (left : Tree K V) (right : Tree K V) : Tree K V
deriving DecidableEq

namespace Tree

variable {K V : Type}

/-- `height(node)`: `return node ? node->height : 0;` (reads the cached field). -/
def height : Tree K V → Int
  | nil => 0
  | node _ _ h _ _ => h

/-- The `left` member of a node (`nil` on a null pointer, which in C++ would be
undefined behaviour; every use below is guarded by a non-null check). -/
def left : Tree K V → Tree K V
  | nil => nil
  | node _ _ _ l _ => l

/-- The `right` member of a node. -/
def right : Tree K V → Tree K V
  | nil => nil
  | node _ _ _ _ r => r

/-- The `key` member of a node, `none` on a null pointer. -/
def rootKey : Tree K V → Option K
  | nil => none
  | node k _ _ _ _ => some k

/-- The `value` member of a node, `none` on a null pointer. -/
def rootValue : Tree K V → Option V
  | nil => none
  | node _ v _ _ _ => some v

/-- `update_height(node)`: `node->height = 1 + std::max(height(node->left),
height(node->right));`.  The `nil` case models the C++ null-pointer
dereference, which is never reached in the calls below. -/
def update_height : Tree K V → Tree K V
  | nil => nil
  | node k v _ l r => node k v (1 + max (height l) (height r)) l r

/-- `calculate_balance_factor(node)`:
`return node ? height(node->right) - height(node->left) : 0;`. -/
def calculate_balance_factor : Tree K V → Int
  | nil => 0
  | node _ _ _ l r => height r - height l

/-- `rotate_left(node)`: `newRoot = node->right; node->right = newRoot->left;
newRoot->left = node; update_height(node); update_height(newRoot);`.
The fallback arm models the null-`newRoot` dereference, never reached from
`balance`. -/
def rotate_left : Tree K V → Tree K V
  | node k v h l (node rk rv rh rl rr) =>
      update_height (node rk rv rh (update_height (node k v h l rl)) rr)
  | t => t

/-- `rotate_right(node)`, the mirror image of `rotate_left`. -/
def rotate_right : Tree K V → Tree K V
  | node k v h (node lk lv lh ll lr) r =>
      update_height (node lk lv lh ll (update_height (node k v h lr r)))
  | t => t

/-- `rotate_left_right(node)`: `node->left = rotate_left(node->left);
return rotate_right(node);`. -/
def rotate_left_right : Tree K V → Tree K V
  | node k v h l r => rotate_right (node k v h (rotate_left l) r)
  | nil => nil

/-- `rotate_right_left(node)`: `node->right = rotate_right(node->right);
return rotate_left(node);`. -/
def rotate_right_left : Tree K V → Tree K V
  | node k v h l r => rotate_left (node k v h l (rotate_right r))
  | nil => nil

/-- `balance(node)`: dispatch on the balance factor, with the source's exact
non-strict tie-breaks (`>= 0` on the right child, `<= 0` on the left child). -/
def balance (t : Tree K V) : Tree K V :=
  if calculate_balance_factor t = 2 then
    if calculate_balance_factor t.right ≥ 0 then rotate_left t else rotate_right_left t
  else if calculate_balance_factor t = -2 then
    if calculate_balance_factor t.left ≤ 0 then rotate_right t else rotate_left_right t
  else t

section Ord

variable [LinearOrder K]

/-- The private recursive `insert(node, key, value)`: creates a fresh node with
cached height `1` at a null position, recurses by `<` / `>`, and on an equal
key returns the node unchanged (first-write-wins) without the
`update_height` / `balance` postlude. -/
def insert : Tree K V → K → V → Tree K V
  | nil, key, value => node key value 1 nil nil
  | node k v h l r, key, value =>
      if key < k then balance (update_height (node k v h (insert l key value) r))
      else if key > k then balance (update_height (node k v h l (insert r key value)))
      else node k v h l r

/-- The private recursive `find(node, key)`: `none` models returning
`nullptr`, `some` the pointer to the found node. -/
def find : Tree K V → K → Option (Tree K V)
  | nil, _ => none
  | node k v h l r, key =>
      if key = k then some (node k v h l r)
      else if key < k then find l key
      else find r key

end Ord

/-- The private `find_min(node)`: throws `std::out_of_range("The tree is
empty.")` on a null node, otherwise iterates `node = node->left` while the
left child is non-null and returns the node reached. -/
def find_min : Tree K V → Except String (Tree K V)
  | nil => .error "The tree is empty."
  | node k v h nil r => .ok (node k v h nil r)
  | node _ _ _ (node lk lv lh ll lr) _ => find_min (node lk lv lh ll lr)

/-- The private `find_max(node)`: mirror of `find_min`, iterating to the
right. -/
def find_max : Tree K V → Except String (Tree K V)
  | nil => .error "The tree is empty."
  | node k v h l nil => .ok (node k v h l nil)
  | node _ _ _ _ (node rk rv rh rl rr) => find_max (node rk rv rh rl rr)

section Ord

variable [LinearOrder K]

/-- The private recursive `erase(node, key)`: recurse by `<` / `>`; at the
located node, with zero or one child return the other child directly (no
rebalance of the spliced-in child itself), and with two children copy the
key/value of `find_max(node->left)` into the node and erase that key from the
left subtree.  The final `| _ => nil` arm of the inner match is unreachable:
`find_max` on a non-null node always returns a node. -/
def erase : Tree K V → K → Tree K V
  | nil, _ => nil
  | node k v h l r, key =>
      if key < k then balance (update_height (node k v h (erase l key) r))
      else if key > k then balance (update_height (node k v h l (erase r key)))
      else
        match l, r with
        | nil, _ => r
        | node lk lv lh ll lr, nil => node lk lv lh ll lr
        | node lk lv lh ll lr, node rk rv rh2 rl rr =>
            match find_max (node lk lv lh ll lr) with
            | .ok (node mk mv _ _ _) =>
                balance (update_height
                  (node mk mv h (erase (node lk lv lh ll lr) mk) (node rk rv rh2 rl rr)))
            | _ => nil

/-- The loop body of `findClosest`: `closest` is the best candidate so far
(`none` initially), updated when the current node is strictly closer under
`abs (key.compare (…))`, then the descent continues by `<` / `>` and breaks on
an exact match.  `cmp` models the key type's three-way `compare`. -/
def findClosestLoop (cmp : K → K → Int) (key : K) : Tree K V → Option (Tree K V) → Option (Tree K V)
  | nil, closest => closest
  | node k v h l r, closest =>
      let closest' :=
        match closest with
        | some (node ck _ _ _ _) =>
            if |cmp key k| < |cmp key ck| then some (node k v h l r) else closest
        | _ => some (node k v h l r)
      if key < k then findClosestLoop cmp key l closest'
      else if key > k then findClosestLoop cmp key r closest'
      else closest'

/-- `findClosest(key)`: starts the iteration at the root with no candidate. -/
def findClosest (cmp : K → K → Int) (t : Tree K V) (key : K) : Option (Tree K V) :=
  findClosestLoop cmp key t none

/-- The keys on the comparison-descent path of `find` / `findClosest` for
`key`, in visiting order (the descent stops at an exact match). -/
def descentKeys (key : K) : Tree K V → List K
  | nil => []
  | node k _ _ l r =>
      k :: (if key < k then descentKeys key l
            else if key > k then descentKeys key r
            else [])

end Ord

/-- `inorder_traversal`: the vector of `(key, value)` pairs pushed in inorder. -/
def inorder_traversal : Tree K V → List (K × V)
  | nil => []
  | node k v _ l r => inorder_traversal l ++ (k, v) :: inorder_traversal r

/-- The inorder key sequence. -/
def keys (t : Tree K V) : List K := (inorder_traversal t).map Prod.fst

/-- The true height of the pointed-to subtree (absent subtree `0`),
independent of the cached `height` fields. -/
def realHeight : Tree K V → Nat
  | nil => 0
  | node _ _ _ l r => 1 + max (realHeight l) (realHeight r)

/-- Cached-height invariant: every node's `height` field equals
`1 + max` of its children's `height` fields. -/
def HeightInv : Tree K V → Prop
  | nil => True
  | node _ _ h l r => h = 1 + max (height l) (height r) ∧ HeightInv l ∧ HeightInv r

/-- AVL balance invariant on true subtree heights:
`|height(left) - height(right)| ≤ 1` at every node. -/
def BalancedT : Tree K V → Prop
  | nil => True
  | node _ _ _ l r =>
      |(realHeight l : Int) - (realHeight r : Int)| ≤ 1 ∧ BalancedT l ∧ BalancedT r

/-- `p` holds of every key in the tree. -/
def All (p : K → Prop) : Tree K V → Prop
  | nil => True
  | node k _ _ l r => p k ∧ All p l ∧ All p r

/-- BST order invariant: left keys strictly below the node key, right keys
strictly above, recursively. -/
def Ordered [LinearOrder K] : Tree K V → Prop
  | nil => True
  | node k _ _ l r => All (· < k) l ∧ All (k < ·) r ∧ Ordered l ∧ Ordered r

instance instDecidableHeightInv [DecidableEq K] [DecidableEq V] :
    (t : Tree K V) → Decidable (HeightInv t)
  | nil => .isTrue trivial
  | node _ _ _ l r =>
      haveI := instDecidableHeightInv l
      haveI := instDecidableHeightInv r
      inferInstanceAs (Decidable (_ ∧ _ ∧ _))

instance instDecidableBalancedT [DecidableEq K] [DecidableEq V] :
    (t : Tree K V) → Decidable (BalancedT t)
  | nil => .isTrue trivial
  | node _ _ _ l r =>
      haveI := instDecidableBalancedT l
      haveI := instDecidableBalancedT r
      inferInstanceAs (Decidable (_ ∧ _ ∧ _))

instance instDecidableAll (p : K → Prop) [DecidablePred p] :
    (t : Tree K V) → Decidable (All p t)
  | nil => .isTrue trivial
  | node _ _ _ l r =>
      haveI := instDecidableAll p l
      haveI := instDecidableAll p r
      inferInstanceAs (Decidable (_ ∧ _ ∧ _))

instance instDecidableOrdered [LinearOrder K] :
    (t : Tree K V) → Decidable (Ordered t)
  | nil => .isTrue trivial
  | node _ _ _ l r =>
      haveI := instDecidableOrdered l
      haveI := instDecidableOrdered r
      inferInstanceAs (Decidable (_ ∧ _ ∧ _))

end Tree

/-- The public constructor `KeyValueAVLTree(KeyValueAVLNode* r)`: stores `r`
as the root with no validation or rebalancing (`root_ = r;`). -/
def mkTreeWithRoot {K V : Type} (r : Tree K V) : Tree K V := r

/-- One public mutating operation on the tree. -/
inductive Op (K V : Type) where
  | insert (key : K) (value : V) : Op K V
  | erase (key : K) : Op K V

/-- Apply one operation via the public `insert` / `erase` wrappers
(`root_ = insert(root_, key, value);` etc.). -/
def applyOp {K V : Type} [LinearOrder K] (t : Tree K V) : Op K V → Tree K V
  | .insert k v => t.insert k v
  | .erase k => t.erase k

/-- The tree obtained from a default-constructed (empty) tree by a sequence of
public insert/erase operations. -/
def applyOps {K V : Type} [LinearOrder K] (ops : List (Op K V)) : Tree K V :=
  ops.foldl applyOp .nil

end KeyValueAVL

namespace KeyValueAVL

namespace Tree

variable {K V : Type}

theorem height_eq_realHeight : ∀ {t : Tree K V}, HeightInv t → height t = (realHeight t : Int)
  | nil, _ => rfl
  | node k v h l r, ⟨hh, hl, hr⟩ => by
      simp only [height, realHeight]
      rw [hh, height_eq_realHeight hl, height_eq_realHeight hr]
      push_cast
      ring

theorem balancedT_node {k : K} {v : V} {h : Int} {l r : Tree K V} :
    BalancedT (node k v h l r) ↔
      realHeight l ≤ realHeight r + 1 ∧ realHeight r ≤ realHeight l + 1 ∧
      BalancedT l ∧ BalancedT r := by
  rw [show BalancedT (node k v h l r) =
    (|(realHeight l : Int) - (realHeight r : Int)| ≤ 1 ∧ BalancedT l ∧ BalancedT r) from rfl,
    abs_le]
  constructor
  · rintro ⟨⟨a, b⟩, c, d⟩
    exact ⟨by omega, by omega, c, d⟩
  · rintro ⟨a, b, c, d⟩
    exact ⟨⟨by omega, by omega⟩, c, d⟩

theorem rotate_left_node (k : K) (v : V) (h : Int) (l : Tree K V)
    (rk : K) (rv : V) (rh : Int) (rl rr : Tree K V) :
    rotate_left (node k v h l (node rk rv rh rl rr)) =
      node rk rv (1 + max (1 + max (height l) (height rl)) (height rr))
        (node k v (1 + max (height l) (height rl)) l rl) rr := rfl

theorem rotate_right_node (k : K) (v : V) (h : Int)
    (lk : K) (lv : V) (lh : Int) (ll lr : Tree K V) (r : Tree K V) :
    rotate_right (node k v h (node lk lv lh ll lr) r) =
      node lk lv (1 + max (height ll) (1 + max (height lr) (height r)))
        ll (node k v (1 + max (height lr) (height r)) lr r) := rfl

theorem rotate_right_left_node (k : K) (v : V) (h : Int) (l : Tree K V)
    (rk : K) (rv : V) (rh : Int) (sk : K) (sv : V) (sh : Int)
    (sl sr rr : Tree K V) :
    rotate_right_left (node k v h l (node rk rv rh (node sk sv sh sl sr) rr)) =
      node sk sv (1 + max (1 + max (height l) (height sl)) (1 + max (height sr) (height rr)))
        (node k v (1 + max (height l) (height sl)) l sl)
        (node rk rv (1 + max (height sr) (height rr)) sr rr) := rfl

theorem rotate_left_right_node (k : K) (v : V) (h : Int)
    (lk : K) (lv : V) (lh : Int) (ll : Tree K V)
    (sk : K) (sv : V) (sh : Int) (sl sr : Tree K V) (r : Tree K V) :
    rotate_left_right (node k v h (node lk lv lh ll (node sk sv sh sl sr)) r) =
      node sk sv (1 + max (1 + max (height ll) (height sl)) (1 + max (height sr) (height r)))
        (node lk lv (1 + max (height ll) (height sl)) ll sl)
        (node k v (1 + max (height sr) (height r)) sr r) := rfl

end Tree

end KeyValueAVL

namespace KeyValueAVL

namespace Tree

variable {K V : Type}

/-- Joint specification of the `update_height` / `balance` postlude executed on
the return path of `insert` and `erase`: given correct cached heights and
balanced children whose true heights differ by at most 2, the postlude keeps
the cached heights correct, restores the balance invariant, produces a tree
whose true height lies between `max` and `1 + max` of the children's heights,
and does nothing at all when the node was already balanced. -/
theorem balance_update_spec (k : K) (v : V) (h : Int) (l r : Tree K V)
    (hil : HeightInv l) (hir : HeightInv r) (hbl : BalancedT l) (hbr : BalancedT r)
    (hd1 : realHeight l ≤ realHeight r + 2) (hd2 : realHeight r ≤ realHeight l + 2) :
    HeightInv (balance (update_height (node k v h l r))) ∧
    BalancedT (balance (update_height (node k v h l r))) ∧
    max (realHeight l) (realHeight r) ≤ realHeight (balance (update_height (node k v h l r))) ∧
    realHeight (balance (update_height (node k v h l r))) ≤
      1 + max (realHeight l) (realHeight r) ∧
    (realHeight l ≤ realHeight r + 1 → realHeight r ≤ realHeight l + 1 →
      balance (update_height (node k v h l r)) =
        node k v (1 + max (height l) (height r)) l r) ∧
    (realHeight l ≤ realHeight r + 1 → realHeight r ≤ realHeight l + 1 →
      realHeight (balance (update_height (node k v h l r))) =
        1 + max (realHeight l) (realHeight r)) := by
  have hhl := height_eq_realHeight hil
  have hhr := height_eq_realHeight hir
  rw [show update_height (node k v h l r) = node k v (1 + max (height l) (height r)) l r
    from rfl]
  by_cases hA : realHeight l ≤ realHeight r + 1 ∧ realHeight r ≤ realHeight l + 1
  · obtain ⟨ha1, ha2⟩ := hA
    have c1 : ¬ (calculate_balance_factor
        (node k v (1 + max (height l) (height r)) l r) = 2) := by
      simp only [calculate_balance_factor, hhl, hhr]
      omega
    have c2 : ¬ (calculate_balance_factor
        (node k v (1 + max (height l) (height r)) l r) = -2) := by
      simp only [calculate_balance_factor, hhl, hhr]
      omega
    have hbal : balance (node k v (1 + max (height l) (height r)) l r) =
        node k v (1 + max (height l) (height r)) l r := by
      unfold balance
      rw [if_neg c1, if_neg c2]
    rw [hbal]
    refine ⟨⟨rfl, hil, hir⟩, ?_, ?_, ?_, fun _ _ => rfl, fun _ _ => rfl⟩
    · rw [balancedT_node]
      exact ⟨ha1, ha2, hbl, hbr⟩
    · simp only [realHeight]; omega
    · simp only [realHeight]; omega
  · by_cases hA2 : realHeight r = realHeight l + 2
    · -- right-heavy: balance factor 2
      cases r with
      | nil => exact absurd hA2 (by simp only [realHeight]; omega)
      | node rk rv rh2 rl rr =>
        have hhR := height_eq_realHeight hir
        obtain ⟨hh2, hirl, hirr⟩ := hir
        rw [balancedT_node] at hbr
        obtain ⟨e1, e2, hbrl, hbrr⟩ := hbr
        have hhrl := height_eq_realHeight hirl
        have hhrr := height_eq_realHeight hirr
        have hmax : 1 + max (realHeight rl) (realHeight rr) = realHeight l + 2 := by
          simpa only [realHeight] using hA2
        have c1 : calculate_balance_factor
            (node k v (1 + max (height l) (height (node rk rv rh2 rl rr)))
              l (node rk rv rh2 rl rr)) = 2 := by
          simp only [calculate_balance_factor, hhR, hhl]
          omega
        by_cases hB : realHeight rl ≤ realHeight rr
        · -- right child not left-heavy: single left rotation
          have c2 : calculate_balance_factor (node rk rv rh2 rl rr) ≥ 0 := by
            simp only [calculate_balance_factor, hhrl, hhrr]
            omega
          have hbal : balance (node k v (1 + max (height l) (height (node rk rv rh2 rl rr)))
                l (node rk rv rh2 rl rr)) =
              rotate_left (node k v (1 + max (height l) (height (node rk rv rh2 rl rr)))
                l (node rk rv rh2 rl rr)) := by
            unfold balance
            rw [if_pos c1,
              show (node k v (1 + max (height l) (height (node rk rv rh2 rl rr)))
                l (node rk rv rh2 rl rr)).right = node rk rv rh2 rl rr from rfl,
              if_pos c2]
          rw [hbal, rotate_left_node]
          refine ⟨⟨rfl, ⟨rfl, hil, hirl⟩, hirr⟩, ?_, ?_, ?_, ?_, ?_⟩
          · simp only [balancedT_node, realHeight]
            refine ⟨?_, ?_, ⟨?_, ?_, hbl, hbrl⟩, hbrr⟩ <;> omega
          · simp only [realHeight]; omega
          · simp only [realHeight]; omega
          · intro h1 h2
            exact absurd hA2 (by omega)
          · intro h1 h2
            exact absurd hA2 (by omega)
        · -- right child left-heavy: right-left double rotation
          have hrl1 : realHeight rl = realHeight l + 1 := by omega
          have hrr1 : realHeight rr = realHeight l := by omega
          cases rl with
          | nil => exact absurd hrl1 (by simp only [realHeight]; omega)
          | node sk sv sh sl sr =>
            obtain ⟨hh3, hisl, hisr⟩ := hirl
            rw [balancedT_node] at hbrl
            obtain ⟨f1, f2, hbsl, hbsr⟩ := hbrl
            have hhsl := height_eq_realHeight hisl
            have hhsr := height_eq_realHeight hisr
            have hmax2 : 1 + max (realHeight sl) (realHeight sr) = realHeight l + 1 := by
              simpa only [realHeight] using hrl1
            have c2 : ¬ (calculate_balance_factor
                (node rk rv rh2 (node sk sv sh sl sr) rr) ≥ 0) := by
              simp only [calculate_balance_factor, hhrl, hhrr]
              have : realHeight (node sk sv sh sl sr) = realHeight l + 1 := hrl1
              omega
            have hbal : balance (node k v
                  (1 + max (height l) (height (node rk rv rh2 (node sk sv sh sl sr) rr)))
                  l (node rk rv rh2 (node sk sv sh sl sr) rr)) =
                rotate_right_left (node k v
                  (1 + max (height l) (height (node rk rv rh2 (node sk sv sh sl sr) rr)))
                  l (node rk rv rh2 (node sk sv sh sl sr) rr)) := by
              unfold balance
              rw [if_pos c1,
                show (node k v
                  (1 + max (height l) (height (node rk rv rh2 (node sk sv sh sl sr) rr)))
                  l (node rk rv rh2 (node sk sv sh sl sr) rr)).right =
                    node rk rv rh2 (node sk sv sh sl sr) rr from rfl,
                if_neg c2]
            rw [hbal, rotate_right_left_node]
            refine ⟨⟨rfl, ⟨rfl, hil, hisl⟩, ⟨rfl, hisr, hirr⟩⟩, ?_, ?_, ?_, ?_, ?_⟩
            · simp only [balancedT_node, realHeight]
              refine ⟨?_, ?_, ⟨?_, ?_, hbl, hbsl⟩, ⟨?_, ?_, hbsr, hbrr⟩⟩ <;> omega
            · simp only [realHeight]; omega
            · simp only [realHeight]; omega
            · intro h1 h2
              exact absurd hA2 (by omega)
            · intro h1 h2
              exact absurd hA2 (by omega)
    · -- left-heavy: balance factor -2
      have hA3 : realHeight l = realHeight r + 2 := by
        rcases not_and_or.mp hA with h' | h' <;> omega
      cases l with
      | nil => exact absurd hA3 (by simp only [realHeight]; omega)
      | node lk lv lh2 ll lr =>
        have hhL := height_eq_realHeight hil
        obtain ⟨hh2, hill, hilr⟩ := hil
        rw [balancedT_node] at hbl
        obtain ⟨e1, e2, hbll, hblr⟩ := hbl
        have hhll := height_eq_realHeight hill
        have hhlr := height_eq_realHeight hilr
        have hmax : 1 + max (realHeight ll) (realHeight lr) = realHeight r + 2 := by
          simpa only [realHeight] using hA3
        have c1 : ¬ (calculate_balance_factor
            (node k v (1 + max (height (node lk lv lh2 ll lr)) (height r))
              (node lk lv lh2 ll lr) r) = 2) := by
          simp only [calculate_balance_factor, hhL, hhr]
          omega
        have c1' : calculate_balance_factor
            (node k v (1 + max (height (node lk lv lh2 ll lr)) (height r))
              (node lk lv lh2 ll lr) r) = -2 := by
          simp only [calculate_balance_factor, hhL, hhr]
          omega
        by_cases hB : realHeight lr ≤ realHeight ll
        · -- left child not right-heavy: single right rotation
          have c2 : calculate_balance_factor (node lk lv lh2 ll lr) ≤ 0 := by
            simp only [calculate_balance_factor, hhll, hhlr]
            omega
          have hbal : balance (node k v (1 + max (height (node lk lv lh2 ll lr)) (height r))
                (node lk lv lh2 ll lr) r) =
              rotate_right (node k v (1 + max (height (node lk lv lh2 ll lr)) (height r))
                (node lk lv lh2 ll lr) r) := by
            unfold balance
            rw [if_neg c1, if_pos c1',
              show (node k v (1 + max (height (node lk lv lh2 ll lr)) (height r))
                (node lk lv lh2 ll lr) r).left = node lk lv lh2 ll lr from rfl,
              if_pos c2]
          rw [hbal, rotate_right_node]
          refine ⟨⟨rfl, hill, ⟨rfl, hilr, hir⟩⟩, ?_, ?_, ?_, ?_, ?_⟩
          · simp only [balancedT_node, realHeight]
            refine ⟨?_, ?_, hbll, ⟨?_, ?_, hblr, hbr⟩⟩ <;> omega
          · simp only [realHeight]; omega
          · simp only [realHeight]; omega
          · intro h1 h2
            exact absurd hA3 (by omega)
          · intro h1 h2
            exact absurd hA3 (by omega)
        · -- left child right-heavy: left-right double rotation
          have hlr1 : realHeight lr = realHeight r + 1 := by omega
          have hll1 : realHeight ll = realHeight r := by omega
          cases lr with
          | nil => exact absurd hlr1 (by simp only [realHeight]; omega)
          | node sk sv sh sl sr =>
            obtain ⟨hh3, hisl, hisr⟩ := hilr
            rw [balancedT_node] at hblr
            obtain ⟨f1, f2, hbsl, hbsr⟩ := hblr
            have hhsl := height_eq_realHeight hisl
            have hhsr := height_eq_realHeight hisr
            have hmax2 : 1 + max (realHeight sl) (realHeight sr) = realHeight r + 1 := by
              simpa only [realHeight] using hlr1
            have c2 : ¬ (calculate_balance_factor
                (node lk lv lh2 ll (node sk sv sh sl sr)) ≤ 0) := by
              simp only [calculate_balance_factor, hhll, hhlr]
              have : realHeight (node sk sv sh sl sr) = realHeight r + 1 := hlr1
              omega
            have hbal : balance (node k v
                  (1 + max (height (node lk lv lh2 ll (node sk sv sh sl sr))) (height r))
                  (node lk lv lh2 ll (node sk sv sh sl sr)) r) =
                rotate_left_right (node k v
                  (1 + max (height (node lk lv lh2 ll (node sk sv sh sl sr))) (height r))
                  (node lk lv lh2 ll (node sk sv sh sl sr)) r) := by
              unfold balance
              rw [if_neg c1, if_pos c1',
                show (node k v
                  (1 + max (height (node lk lv lh2 ll (node sk sv sh sl sr))) (height r))
                  (node lk lv lh2 ll (node sk sv sh sl sr)) r).left =
                    node lk lv lh2 ll (node sk sv sh sl sr) from rfl,
                if_neg c2]
            rw [hbal, rotate_left_right_node]
            refine ⟨⟨rfl, ⟨rfl, hill, hisl⟩, ⟨rfl, hisr, hir⟩⟩, ?_, ?_, ?_, ?_, ?_⟩
            · simp only [balancedT_node, realHeight]
              refine ⟨?_, ?_, ⟨?_, ?_, hbll, hbsl⟩, ⟨?_, ?_, hbsr, hbr⟩⟩ <;> omega
            · simp only [realHeight]; omega
            · simp only [realHeight]; omega
            · intro h1 h2
              exact absurd hA3 (by omega)
            · intro h1 h2
              exact absurd hA3 (by omega)

end Tree

end KeyValueAVL

namespace KeyValueAVL

namespace Tree

variable {K V : Type}

theorem realHeight_node (k : K) (v : V) (h : Int) (l r : Tree K V) :
    realHeight (node k v h l r) = 1 + max (realHeight l) (realHeight r) := rfl

/-- `find_max` on a non-null node always succeeds and returns a node with a
null right child (the rightmost node). -/
theorem find_max_shape : ∀ (t : Tree K V), t ≠ nil →
    ∃ mk mv mh ml, find_max t = .ok (node mk mv mh ml nil)
  | nil, hne => absurd rfl hne
  | node k v h l nil, _ => ⟨k, v, h, l, rfl⟩
  | node k v h l (node rk rv rh rl rr), _ => by
      have ih := find_max_shape (node rk rv rh rl rr) (by simp)
      simpa only [find_max] using ih

theorem update_height_eq_self {k : K} {v : V} {h : Int} {l r : Tree K V}
    (hh : h = 1 + max (height l) (height r)) :
    update_height (node k v h l r) = node k v h l r := by
  rw [show update_height (node k v h l r) = node k v (1 + max (height l) (height r)) l r
    from rfl, ← hh]

/-- `balance` does nothing on a node that already satisfies the invariants. -/
theorem balance_eq_self : ∀ {t : Tree K V}, HeightInv t → BalancedT t → balance t = t
  | nil, _, _ => rfl
  | node k v h l r, ⟨hh, hil, hir⟩, hb => by
      rw [balancedT_node] at hb
      obtain ⟨hb1, hb2, _, _⟩ := hb
      have hhl := height_eq_realHeight hil
      have hhr := height_eq_realHeight hir
      have c1 : ¬ (calculate_balance_factor (node k v h l r) = 2) := by
        simp only [calculate_balance_factor, hhl, hhr]
        omega
      have c2 : ¬ (calculate_balance_factor (node k v h l r) = -2) := by
        simp only [calculate_balance_factor, hhl, hhr]
        omega
      unfold balance
      rw [if_neg c1, if_neg c2]

section Ord

variable [LinearOrder K]

/-- `insert` preserves the cached-height and AVL-balance invariants and grows
the true height by at most one. -/
theorem insert_spec (t : Tree K V) (key : K) (val : V) :
    HeightInv t → BalancedT t →
    HeightInv (insert t key val) ∧ BalancedT (insert t key val) ∧
    realHeight t ≤ realHeight (insert t key val) ∧
    realHeight (insert t key val) ≤ realHeight t + 1 := by
  induction t with
  | nil =>
      intro _ _
      refine ⟨⟨by simp [height], trivial, trivial⟩,
        ⟨by simp [realHeight], trivial, trivial⟩,
        by simp [insert, realHeight], by simp [insert, realHeight]⟩
  | node k v h l r ihl ihr =>
      intro hi hb
      obtain ⟨hh, hil, hir⟩ := hi
      rw [balancedT_node] at hb
      obtain ⟨hb1, hb2, hbl, hbr⟩ := hb
      rcases lt_trichotomy key k with hlt | heq | hgt
      · have hins : insert (node k v h l r) key val =
            balance (update_height (node k v h (insert l key val) r)) := by
          simp only [insert]
          rw [if_pos hlt]
        obtain ⟨ih1, ih2, ih3, ih4⟩ := ihl hil hbl
        obtain ⟨s1, s2, s3, s4, s5, s6⟩ :=
          balance_update_spec k v h (insert l key val) r ih1 hir ih2 hbr
            (by omega) (by omega)
        rw [hins]
        refine ⟨s1, s2, ?_, ?_⟩
        · by_cases hc : realHeight (insert l key val) ≤ realHeight r + 1 ∧
              realHeight r ≤ realHeight (insert l key val) + 1
          · rw [s6 hc.1 hc.2]
            simp only [realHeight]
            omega
          · simp only [realHeight]
            omega
        · simp only [realHeight]
          omega
      · have hins : insert (node k v h l r) key val = node k v h l r := by
          simp only [insert]
          rw [if_neg (by simp [heq]), if_neg (by simp [heq])]
        rw [hins]
        exact ⟨⟨hh, hil, hir⟩, by rw [balancedT_node]; exact ⟨hb1, hb2, hbl, hbr⟩,
          le_refl _, by omega⟩
      · have hins : insert (node k v h l r) key val =
            balance (update_height (node k v h l (insert r key val))) := by
          simp only [insert]
          rw [if_neg (by exact not_lt.mpr (le_of_lt hgt)), if_pos hgt]
        obtain ⟨ih1, ih2, ih3, ih4⟩ := ihr hir hbr
        obtain ⟨s1, s2, s3, s4, s5, s6⟩ :=
          balance_update_spec k v h l (insert r key val) hil ih1 hbl ih2
            (by omega) (by omega)
        rw [hins]
        refine ⟨s1, s2, ?_, ?_⟩
        · by_cases hc : realHeight l ≤ realHeight (insert r key val) + 1 ∧
              realHeight (insert r key val) ≤ realHeight l + 1
          · rw [s6 hc.1 hc.2]
            simp only [realHeight]
            omega
          · simp only [realHeight]
            omega
        · simp only [realHeight]
          omega

/-- Case-unfolding of `erase` when the key is below the node key. -/
theorem erase_lt {k : K} {v : V} {h : Int} {l r : Tree K V} {key : K} (hlt : key < k) :
    erase (node k v h l r) key = balance (update_height (node k v h (erase l key) r)) := by
  cases l <;> cases r <;> (simp only [erase]; rw [if_pos hlt])

/-- Case-unfolding of `erase` when the key is above the node key. -/
theorem erase_gt {k : K} {v : V} {h : Int} {l r : Tree K V} {key : K} (hgt : key > k) :
    erase (node k v h l r) key = balance (update_height (node k v h l (erase r key))) := by
  cases l <;> cases r <;>
    (simp only [erase]; rw [if_neg (by exact not_lt.mpr (le_of_lt hgt)), if_pos hgt])

/-- Case-unfolding of `erase` at the located node with a null left child. -/
theorem erase_found_nil_left {k : K} {v : V} {h : Int} {r : Tree K V} {key : K}
    (h1 : ¬ key < k) (h2 : ¬ key > k) :
    erase (node k v h nil r) key = r := by
  cases r <;> (simp only [erase]; rw [if_neg h1, if_neg h2])

/-- Case-unfolding of `erase` at the located node with a null right child. -/
theorem erase_found_nil_right {k : K} {v : V} {h : Int} {key : K}
    (lk : K) (lv : V) (lh : Int) (ll lr : Tree K V)
    (h1 : ¬ key < k) (h2 : ¬ key > k) :
    erase (node k v h (node lk lv lh ll lr) nil) key = node lk lv lh ll lr := by
  simp only [erase]; rw [if_neg h1, if_neg h2]

/-- Case-unfolding of `erase` at a located node with two children: the key and
value of the in-order predecessor (`find_max` of the left subtree) replace the
node's, and the predecessor's key is erased from the left subtree. -/
theorem erase_found_two {k : K} {v : V} {h : Int} {key : K}
    (lk : K) (lv : V) (lh : Int) (ll lr : Tree K V)
    (rk : K) (rv : V) (rh2 : Int) (rl rr : Tree K V)
    {mk : K} {mv : V} {mh : Int} {ml mr : Tree K V}
    (h1 : ¬ key < k) (h2 : ¬ key > k)
    (hfm : find_max (node lk lv lh ll lr) = .ok (node mk mv mh ml mr)) :
    erase (node k v h (node lk lv lh ll lr) (node rk rv rh2 rl rr)) key =
      balance (update_height
        (node mk mv h (erase (node lk lv lh ll lr) mk) (node rk rv rh2 rl rr))) := by
  simp only [erase]; rw [if_neg h1, if_neg h2, hfm]

/-- `erase` preserves the cached-height and AVL-balance invariants and
shrinks the true height by at most one. -/
theorem erase_spec (t : Tree K V) : ∀ (key : K), HeightInv t → BalancedT t →
    HeightInv (erase t key) ∧ BalancedT (erase t key) ∧
    realHeight t ≤ realHeight (erase t key) + 1 ∧
    realHeight (erase t key) ≤ realHeight t := by
  induction t with
  | nil =>
      intro key _ _
      exact ⟨trivial, trivial, by simp [erase, realHeight], by simp [erase, realHeight]⟩
  | node k v h l r ihl ihr =>
      intro key hi hb
      obtain ⟨hh, hil, hir⟩ := hi
      rw [balancedT_node] at hb
      obtain ⟨hb1, hb2, hbl, hbr⟩ := hb
      rcases lt_trichotomy key k with hlt | heq | hgt
      · obtain ⟨ih1, ih2, ih3, ih4⟩ := ihl key hil hbl
        obtain ⟨s1, s2, s3, s4, s5, s6⟩ :=
          balance_update_spec k v h (erase l key) r ih1 hir ih2 hbr
            (by omega) (by omega)
        rw [erase_lt hlt]
        refine ⟨s1, s2, ?_, ?_⟩
        · by_cases hc : realHeight (erase l key) ≤ realHeight r + 1 ∧
              realHeight r ≤ realHeight (erase l key) + 1
          · rw [s6 hc.1 hc.2]
            simp only [realHeight]
            omega
          · simp only [realHeight]
            omega
        · simp only [realHeight]
          omega
      · have h1 : ¬ key < k := by simp [heq]
        have h2 : ¬ key > k := by simp [heq]
        cases l with
        | nil =>
            rw [erase_found_nil_left h1 h2]
            have e0 : realHeight (nil : Tree K V) = 0 := rfl
            have eT : realHeight (node k v h nil r) = 1 + max 0 (realHeight r) := rfl
            exact ⟨hir, hbr, by omega, by omega⟩
        | node lk lv lh ll lr =>
            cases r with
            | nil =>
                rw [erase_found_nil_right lk lv lh ll lr h1 h2]
                have e0 : realHeight (nil : Tree K V) = 0 := rfl
                have eT : realHeight (node k v h (node lk lv lh ll lr) nil) =
                    1 + max (realHeight (node lk lv lh ll lr)) 0 := rfl
                exact ⟨hil, hbl, by omega, by omega⟩
            | node rk rv rh2 rl rr =>
                obtain ⟨mk, mv, mh, ml, hfm⟩ :=
                  find_max_shape (node lk lv lh ll lr) (by simp)
                obtain ⟨ih1, ih2, ih3, ih4⟩ := ihl mk hil hbl
                obtain ⟨s1, s2, s3, s4, s5, s6⟩ :=
                  balance_update_spec mk mv h (erase (node lk lv lh ll lr) mk)
                    (node rk rv rh2 rl rr) ih1 hir ih2 hbr (by omega) (by omega)
                rw [erase_found_two lk lv lh ll lr rk rv rh2 rl rr h1 h2 hfm]
                have eT : realHeight (node k v h (node lk lv lh ll lr)
                      (node rk rv rh2 rl rr)) =
                    1 + max (realHeight (node lk lv lh ll lr))
                      (realHeight (node rk rv rh2 rl rr)) := rfl
                refine ⟨s1, s2, ?_, ?_⟩
                · by_cases hc : realHeight (erase (node lk lv lh ll lr) mk) ≤
                      realHeight (node rk rv rh2 rl rr) + 1 ∧
                      realHeight (node rk rv rh2 rl rr) ≤
                        realHeight (erase (node lk lv lh ll lr) mk) + 1
                  · rw [s6 hc.1 hc.2]
                    omega
                  · omega
                · omega
      · obtain ⟨ih1, ih2, ih3, ih4⟩ := ihr key hir hbr
        obtain ⟨s1, s2, s3, s4, s5, s6⟩ :=
          balance_update_spec k v h l (erase r key) hil ih1 hbl ih2
            (by omega) (by omega)
        rw [erase_gt hgt]
        refine ⟨s1, s2, ?_, ?_⟩
        · by_cases hc : realHeight l ≤ realHeight (erase r key) + 1 ∧
              realHeight (erase r key) ≤ realHeight l + 1
          · rw [s6 hc.1 hc.2]
            simp only [realHeight]
            omega
          · simp only [realHeight]
            omega
        · simp only [realHeight]
          omega

end Ord

end Tree

end KeyValueAVL

namespace KeyValueAVL

namespace Tree

variable {K V : Type}

theorem inorder_update_height : ∀ (t : Tree K V),
    inorder_traversal (update_height t) = inorder_traversal t
  | nil => rfl
  | node _ _ _ _ _ => rfl

theorem inorder_rotate_left : ∀ (t : Tree K V),
    inorder_traversal (rotate_left t) = inorder_traversal t
  | nil => rfl
  | node _ _ _ _ nil => rfl
  | node k v h l (node rk rv rh rl rr) => by
      show inorder_traversal (update_height (node rk rv rh (update_height (node k v h l rl)) rr))
        = _
      rw [inorder_update_height]
      show inorder_traversal (update_height (node k v h l rl)) ++ _ = _
      rw [inorder_update_height]
      show (inorder_traversal l ++ (k, v) :: inorder_traversal rl) ++
          (rk, rv) :: inorder_traversal rr =
        inorder_traversal l ++ (k, v) ::
          (inorder_traversal rl ++ (rk, rv) :: inorder_traversal rr)
      simp [List.append_assoc]

theorem inorder_rotate_right : ∀ (t : Tree K V),
    inorder_traversal (rotate_right t) = inorder_traversal t
  | nil => rfl
  | node _ _ _ nil _ => rfl
  | node k v h (node lk lv lh ll lr) r => by
      show inorder_traversal (update_height (node lk lv lh ll (update_height (node k v h lr r))))
        = _
      rw [inorder_update_height]
      show inorder_traversal ll ++ (lk, lv) ::
          inorder_traversal (update_height (node k v h lr r)) = _
      rw [inorder_update_height]
      show inorder_traversal ll ++ (lk, lv) ::
          (inorder_traversal lr ++ (k, v) :: inorder_traversal r) =
        (inorder_traversal ll ++ (lk, lv) :: inorder_traversal lr) ++
          (k, v) :: inorder_traversal r
      simp [List.append_assoc]

theorem inorder_rotate_right_left : ∀ (t : Tree K V),
    inorder_traversal (rotate_right_left t) = inorder_traversal t
  | nil => rfl
  | node k v h l r => by
      show inorder_traversal (rotate_left (node k v h l (rotate_right r))) = _
      rw [inorder_rotate_left]
      show inorder_traversal l ++ (k, v) :: inorder_traversal (rotate_right r) = _
      rw [inorder_rotate_right]
      rfl

theorem inorder_rotate_left_right : ∀ (t : Tree K V),
    inorder_traversal (rotate_left_right t) = inorder_traversal t
  | nil => rfl
  | node k v h l r => by
      show inorder_traversal (rotate_right (node k v h (rotate_left l) r)) = _
      rw [inorder_rotate_right]
      show inorder_traversal (rotate_left l) ++ (k, v) :: inorder_traversal r = _
      rw [inorder_rotate_left]
      rfl

/-- Every branch of `balance` is a rotation, and rotations preserve the
inorder sequence of `(key, value)` pairs. -/
theorem inorder_balance (t : Tree K V) :
    inorder_traversal (balance t) = inorder_traversal t := by
  unfold balance
  split_ifs
  · exact inorder_rotate_left t
  · exact inorder_rotate_right_left t
  · exact inorder_rotate_right t
  · exact inorder_rotate_left_right t
  · rfl

theorem keys_nil : keys (nil : Tree K V) = [] := rfl

theorem keys_node (k : K) (v : V) (h : Int) (l r : Tree K V) :
    keys (node k v h l r) = keys l ++ k :: keys r := by
  simp [keys, inorder_traversal]

theorem keys_balance (t : Tree K V) : keys (balance t) = keys t := by
  simp [keys, inorder_balance]

theorem keys_update_height (t : Tree K V) : keys (update_height t) = keys t := by
  simp [keys, inorder_update_height]

theorem All_iff {p : K → Prop} (t : Tree K V) : All p t ↔ ∀ x ∈ keys t, p x := by
  induction t with
  | nil => simp [All, keys, inorder_traversal]
  | node k v h l r ihl ihr =>
      rw [show All p (node k v h l r) = (p k ∧ All p l ∧ All p r) from rfl,
        ihl, ihr, keys_node]
      constructor
      · rintro ⟨h1, h2, h3⟩ x hx
        rcases List.mem_append.mp hx with hx | hx
        · exact h2 x hx
        · rcases List.mem_cons.mp hx with rfl | hx
          · exact h1
          · exact h3 x hx
      · intro hall
        refine ⟨hall k (by simp), fun x hx => hall x ?_, fun x hx => hall x ?_⟩
        · exact List.mem_append.mpr (Or.inl hx)
        · exact List.mem_append.mpr (Or.inr (List.mem_cons.mpr (Or.inr hx)))

theorem ordered_iff_pairwise [LinearOrder K] (t : Tree K V) :
    Ordered t ↔ List.Pairwise (· < ·) (keys t) := by
  induction t with
  | nil => simp [Ordered, keys, inorder_traversal]
  | node k v h l r ihl ihr =>
      rw [show Ordered (node k v h l r) =
          (All (· < k) l ∧ All (k < ·) r ∧ Ordered l ∧ Ordered r) from rfl,
        keys_node, List.pairwise_append, List.pairwise_cons, ihl, ihr, All_iff, All_iff]
      constructor
      · rintro ⟨h1, h2, h3, h4⟩
        refine ⟨h3, ⟨h2, h4⟩, ?_⟩
        intro a ha b hb
        rcases List.mem_cons.mp hb with rfl | hb
        · exact h1 a ha
        · exact lt_trans (h1 a ha) (h2 b hb)
      · rintro ⟨h3, ⟨h2, h4⟩, hcross⟩
        exact ⟨fun x hx => hcross x hx k (List.mem_cons_self _ _),
          h2, h3, h4⟩

theorem All_balance {p : K → Prop} (t : Tree K V) : All p (balance t) ↔ All p t := by
  rw [All_iff, All_iff, keys_balance]

theorem All_update_height {p : K → Prop} (t : Tree K V) :
    All p (update_height t) ↔ All p t := by
  rw [All_iff, All_iff, keys_update_height]

theorem Ordered_balance [LinearOrder K] (t : Tree K V) :
    Ordered (balance t) ↔ Ordered t := by
  rw [ordered_iff_pairwise, ordered_iff_pairwise, keys_balance]

theorem Ordered_update_height [LinearOrder K] (t : Tree K V) :
    Ordered (update_height t) ↔ Ordered t := by
  rw [ordered_iff_pairwise, ordered_iff_pairwise, keys_update_height]

end Tree

end KeyValueAVL

namespace KeyValueAVL

namespace Tree

variable {K V : Type}

section Ord

variable [LinearOrder K]

/-- Case-unfolding of `insert` below the node key. -/
theorem insert_lt {k : K} {v : V} {h : Int} {l r : Tree K V} {key : K} {val : V}
    (hlt : key < k) :
    insert (node k v h l r) key val =
      balance (update_height (node k v h (insert l key val) r)) := by
  simp only [insert]
  rw [if_pos hlt]

/-- Case-unfolding of `insert` above the node key. -/
theorem insert_gt {k : K} {v : V} {h : Int} {l r : Tree K V} {key : K} {val : V}
    (hgt : key > k) :
    insert (node k v h l r) key val =
      balance (update_height (node k v h l (insert r key val))) := by
  simp only [insert]
  rw [if_neg (not_lt.mpr (le_of_lt hgt)), if_pos hgt]

/-- Case-unfolding of `insert` at an equal key: first-write-wins, the node is
returned untouched. -/
theorem insert_found {k : K} {v : V} {h : Int} {l r : Tree K V} {key : K} {val : V}
    (h1 : ¬ key < k) (h2 : ¬ key > k) :
    insert (node k v h l r) key val = node k v h l r := by
  simp only [insert]
  rw [if_neg h1, if_neg h2]

/-- The key set after `insert` is the old key set plus the inserted key. -/
theorem mem_keys_insert (t : Tree K V) (key : K) (val : V) (x : K) :
    x ∈ keys (insert t key val) ↔ x = key ∨ x ∈ keys t := by
  induction t with
  | nil => simp [insert, keys, inorder_traversal]
  | node k v h l r ihl ihr =>
      rcases lt_trichotomy key k with hlt | heq | hgt
      · rw [insert_lt hlt, keys_balance, keys_update_height, keys_node, keys_node]
        simp only [List.mem_append, List.mem_cons, ihl]
        tauto
      · rw [insert_found (by simp [heq]) (by simp [heq])]
        have hk : key ∈ keys (node k v h l r) := by
          rw [keys_node, heq]
          exact List.mem_append.mpr (Or.inr (List.mem_cons_self _ _))
        constructor
        · exact Or.inr
        · rintro (rfl | hx)
          · exact hk
          · exact hx
      · rw [insert_gt hgt, keys_balance, keys_update_height, keys_node, keys_node]
        simp only [List.mem_append, List.mem_cons, ihr]
        tauto

/-- A freshly inserted key is present with the inserted value. -/
theorem pair_mem_insert (t : Tree K V) (key : K) (val : V) (hmem : key ∉ keys t) :
    (key, val) ∈ inorder_traversal (insert t key val) := by
  induction t with
  | nil => simp [insert, inorder_traversal]
  | node k v h l r ihl ihr =>
      rcases lt_trichotomy key k with hlt | heq | hgt
      · rw [insert_lt hlt, inorder_balance, inorder_update_height]
        show (key, val) ∈ inorder_traversal (insert l key val) ++
          (k, v) :: inorder_traversal r
        have hl : key ∉ keys l := by
          intro hx
          exact hmem (by rw [keys_node]; exact List.mem_append.mpr (Or.inl hx))
        exact List.mem_append.mpr (Or.inl (ihl hl))
      · exact absurd (by
          rw [keys_node, heq]
          exact List.mem_append.mpr (Or.inr (List.mem_cons_self _ _))) hmem
      · rw [insert_gt hgt, inorder_balance, inorder_update_height]
        show (key, val) ∈ inorder_traversal l ++
          (k, v) :: inorder_traversal (insert r key val)
        have hr : key ∉ keys r := by
          intro hx
          exact hmem (by
            rw [keys_node]
            exact List.mem_append.mpr (Or.inr (List.mem_cons.mpr (Or.inr hx))))
        exact List.mem_append.mpr (Or.inr (List.mem_cons.mpr (Or.inr (ihr hr))))

theorem All_insert {p : K → Prop} (t : Tree K V) (key : K) (val : V)
    (hp : p key) (hall : All p t) : All p (insert t key val) := by
  rw [All_iff] at hall ⊢
  intro x hx
  rcases (mem_keys_insert t key val x).mp hx with rfl | hx
  · exact hp
  · exact hall x hx

/-- `insert` preserves the BST ordering invariant. -/
theorem insert_ordered (t : Tree K V) (key : K) (val : V) (ho : Ordered t) :
    Ordered (insert t key val) := by
  induction t with
  | nil => exact ⟨trivial, trivial, trivial, trivial⟩
  | node k v h l r ihl ihr =>
      obtain ⟨o1, o2, o3, o4⟩ := ho
      rcases lt_trichotomy key k with hlt | heq | hgt
      · rw [insert_lt hlt, Ordered_balance, Ordered_update_height]
        exact ⟨All_insert l key val hlt o1, o2, ihl o3, o4⟩
      · rw [insert_found (by simp [heq]) (by simp [heq])]
        exact ⟨o1, o2, o3, o4⟩
      · rw [insert_gt hgt, Ordered_balance, Ordered_update_height]
        exact ⟨o1, All_insert r key val hgt o2, o3, ihr o4⟩

/-- `find_max` returns the rightmost node; its key belongs to the tree, and
under the ordering invariant it is the maximum key. -/
theorem find_max_spec : ∀ (t : Tree K V), t ≠ nil →
    ∃ mk mv mh ml, find_max t = .ok (node mk mv mh ml nil) ∧ mk ∈ keys t ∧
      (Ordered t → ∀ x ∈ keys t, x ≤ mk)
  | nil, hne => absurd rfl hne
  | node k v h l nil, _ => by
      refine ⟨k, v, h, l, rfl, ?_, ?_⟩
      · rw [keys_node]
        exact List.mem_append.mpr (Or.inr (List.mem_cons_self _ _))
      · rintro ⟨o1, _, _, _⟩ x hx
        rw [keys_node] at hx
        rcases List.mem_append.mp hx with hx | hx
        · exact le_of_lt ((All_iff l).mp o1 x hx)
        · rcases List.mem_cons.mp hx with rfl | hx
          · exact le_refl _
          · exact absurd hx (by simp [keys_nil])
  | node k v h l (node rk rv rh rl rr), _ => by
      obtain ⟨mk, mv, mh, ml, hfm, hmem, hmax⟩ :=
        find_max_spec (node rk rv rh rl rr) (by simp)
      refine ⟨mk, mv, mh, ml, by simpa only [find_max] using hfm, ?_, ?_⟩
      · rw [keys_node]
        exact List.mem_append.mpr (Or.inr (List.mem_cons.mpr (Or.inr hmem)))
      · rintro ⟨o1, o2, o3, o4⟩ x hx
        have hkmk : k < mk := (All_iff (node rk rv rh rl rr)).mp o2 mk hmem
        rw [keys_node] at hx
        rcases List.mem_append.mp hx with hx | hx
        · exact le_of_lt (lt_trans ((All_iff l).mp o1 x hx) hkmk)
        · rcases List.mem_cons.mp hx with rfl | hx
          · exact le_of_lt hkmk
          · exact hmax o4 x hx

/-- `find_min` returns the leftmost node; its key belongs to the tree, and
under the ordering invariant it is the minimum key. -/
theorem find_min_spec : ∀ (t : Tree K V), t ≠ nil →
    ∃ mk mv mh mr, find_min t = .ok (node mk mv mh nil mr) ∧ mk ∈ keys t ∧
      (Ordered t → ∀ x ∈ keys t, mk ≤ x)
  | nil, hne => absurd rfl hne
  | node k v h nil r, _ => by
      refine ⟨k, v, h, r, rfl, ?_, ?_⟩
      · rw [keys_node]
        exact List.mem_append.mpr (Or.inr (List.mem_cons_self _ _))
      · rintro ⟨_, o2, _, _⟩ x hx
        rw [keys_node] at hx
        rcases List.mem_append.mp hx with hx | hx
        · exact absurd hx (by simp [keys_nil])
        · rcases List.mem_cons.mp hx with rfl | hx
          · exact le_refl _
          · exact le_of_lt ((All_iff r).mp o2 x hx)
  | node k v h (node lk lv lh ll lr) r, _ => by
      obtain ⟨mk, mv, mh, mr, hfm, hmem, hmin⟩ :=
        find_min_spec (node lk lv lh ll lr) (by simp)
      refine ⟨mk, mv, mh, mr, by simpa only [find_min] using hfm, ?_, ?_⟩
      · rw [keys_node]
        exact List.mem_append.mpr (Or.inl hmem)
      · rintro ⟨o1, o2, o3, o4⟩ x hx
        have hmkk : mk < k := (All_iff (node lk lv lh ll lr)).mp o1 mk hmem
        rw [keys_node] at hx
        rcases List.mem_append.mp hx with hx | hx
        · exact hmin o3 x hx
        · rcases List.mem_cons.mp hx with rfl | hx
          · exact le_of_lt hmkk
          · exact le_of_lt (lt_trans hmkk ((All_iff r).mp o2 x hx))

end Ord

end Tree

end KeyValueAVL

namespace KeyValueAVL

namespace Tree

variable {K V : Type}

section Ord

variable [LinearOrder K]

/-- Under the ordering invariant, `erase` removes exactly the requested key. -/
theorem mem_keys_erase (t : Tree K V) : ∀ (key : K), Ordered t →
    ∀ x, x ∈ keys (erase t key) ↔ (x ∈ keys t ∧ x ≠ key) := by
  induction t with
  | nil =>
      intro key _ x
      simp [erase, keys, inorder_traversal]
  | node k v h l r ihl ihr =>
      intro key ho x
      obtain ⟨o1, o2, o3, o4⟩ := ho
      rcases lt_trichotomy key k with hlt | heq | hgt
      · rw [erase_lt hlt, keys_balance, keys_update_height, keys_node, keys_node]
        simp only [List.mem_append, List.mem_cons, ihl key o3 x]
        have hk : k ≠ key := ne_of_gt hlt
        have hr : ∀ y, y ∈ keys r → y ≠ key := fun y hy =>
          ne_of_gt (lt_trans hlt ((All_iff r).mp o2 y hy))
        constructor
        · rintro (⟨hx, hne⟩ | rfl | hx)
          · exact ⟨Or.inl hx, hne⟩
          · exact ⟨Or.inr (Or.inl rfl), hk⟩
          · exact ⟨Or.inr (Or.inr hx), hr x hx⟩
        · rintro ⟨(hx | rfl | hx), hne⟩
          · exact Or.inl ⟨hx, hne⟩
          · exact Or.inr (Or.inl rfl)
          · exact Or.inr (Or.inr hx)
      · have h1 : ¬ key < k := by simp [heq]
        have h2 : ¬ key > k := by simp [heq]
        cases l with
        | nil =>
            rw [erase_found_nil_left h1 h2, keys_node, keys_nil, List.nil_append]
            have hr : ∀ y, y ∈ keys r → y ≠ key := fun y hy => by
              rw [heq]
              exact ne_of_gt ((All_iff r).mp o2 y hy)
            simp only [List.mem_cons]
            constructor
            · intro hx
              exact ⟨Or.inr hx, hr x hx⟩
            · rintro ⟨(rfl | hx), hne⟩
              · exact absurd heq.symm hne
              · exact hx
        | node lk lv lh ll lr =>
            cases r with
            | nil =>
                rw [erase_found_nil_right lk lv lh ll lr h1 h2,
                  keys_node k v h (node lk lv lh ll lr) nil, keys_nil]
                have hl : ∀ y, y ∈ keys (node lk lv lh ll lr) → y ≠ key := fun y hy => by
                  rw [heq]
                  exact ne_of_lt ((All_iff (node lk lv lh ll lr)).mp o1 y hy)
                simp only [List.mem_append, List.mem_cons]
                constructor
                · intro hx
                  exact ⟨Or.inl hx, hl x hx⟩
                · rintro ⟨(hx | rfl | hx), hne⟩
                  · exact hx
                  · exact absurd heq.symm hne
                  · exact absurd hx (by simp [keys_nil])
            | node rk rv rh2 rl rr =>
                obtain ⟨mk, mv, mh, ml, hfm, hmkmem, hmkmax⟩ :=
                  find_max_spec (node lk lv lh ll lr) (by simp)
                rw [erase_found_two lk lv lh ll lr rk rv rh2 rl rr h1 h2 hfm,
                  keys_balance, keys_update_height,
                  keys_node mk mv h (erase (node lk lv lh ll lr) mk)
                    (node rk rv rh2 rl rr),
                  keys_node k v h (node lk lv lh ll lr) (node rk rv rh2 rl rr)]
                simp only [List.mem_append, List.mem_cons, ihl mk o3 x]
                have hLne : ∀ y, y ∈ keys (node lk lv lh ll lr) → y ≠ key := fun y hy => by
                  rw [heq]
                  exact ne_of_lt ((All_iff (node lk lv lh ll lr)).mp o1 y hy)
                have hRne : ∀ y, y ∈ keys (node rk rv rh2 rl rr) → y ≠ key := fun y hy => by
                  rw [heq]
                  exact ne_of_gt ((All_iff (node rk rv rh2 rl rr)).mp o2 y hy)
                constructor
                · rintro (⟨hx, hne⟩ | hxeq | hx)
                  · exact ⟨Or.inl hx, hLne x hx⟩
                  · subst hxeq
                    exact ⟨Or.inl hmkmem, hLne x hmkmem⟩
                  · exact ⟨Or.inr (Or.inr hx), hRne x hx⟩
                · rintro ⟨(hx | rfl | hx), hne⟩
                  · by_cases hxmk : x = mk
                    · exact Or.inr (Or.inl hxmk)
                    · exact Or.inl ⟨hx, hxmk⟩
                  · exact absurd heq.symm hne
                  · exact Or.inr (Or.inr hx)
      · rw [erase_gt hgt, keys_balance, keys_update_height, keys_node, keys_node]
        simp only [List.mem_append, List.mem_cons, ihr key o4 x]
        have hk : k ≠ key := ne_of_lt hgt
        have hl : ∀ y, y ∈ keys l → y ≠ key := fun y hy =>
          ne_of_lt (lt_trans ((All_iff l).mp o1 y hy) hgt)
        constructor
        · rintro (hx | rfl | ⟨hx, hne⟩)
          · exact ⟨Or.inl hx, hl x hx⟩
          · exact ⟨Or.inr (Or.inl rfl), hk⟩
          · exact ⟨Or.inr (Or.inr hx), hne⟩
        · rintro ⟨(hx | rfl | hx), hne⟩
          · exact Or.inl hx
          · exact Or.inr (Or.inl rfl)
          · exact Or.inr (Or.inr ⟨hx, hne⟩)

/-- `erase` preserves the BST ordering invariant. -/
theorem erase_ordered (t : Tree K V) : ∀ (key : K), Ordered t →
    Ordered (erase t key) := by
  induction t with
  | nil =>
      intro key _
      exact trivial
  | node k v h l r ihl ihr =>
      intro key ho
      obtain ⟨o1, o2, o3, o4⟩ := ho
      rcases lt_trichotomy key k with hlt | heq | hgt
      · rw [erase_lt hlt, Ordered_balance, Ordered_update_height]
        refine ⟨?_, o2, ihl key o3, o4⟩
        rw [All_iff]
        intro x hx
        exact (All_iff l).mp o1 x ((mem_keys_erase l key o3 x).mp hx).1
      · have h1 : ¬ key < k := by simp [heq]
        have h2 : ¬ key > k := by simp [heq]
        cases l with
        | nil =>
            rw [erase_found_nil_left h1 h2]
            exact o4
        | node lk lv lh ll lr =>
            cases r with
            | nil =>
                rw [erase_found_nil_right lk lv lh ll lr h1 h2]
                exact o3
            | node rk rv rh2 rl rr =>
                obtain ⟨mk, mv, mh, ml, hfm, hmkmem, hmkmax⟩ :=
                  find_max_spec (node lk lv lh ll lr) (by simp)
                rw [erase_found_two lk lv lh ll lr rk rv rh2 rl rr h1 h2 hfm,
                  Ordered_balance, Ordered_update_height]
                have hmkk : mk < k := (All_iff (node lk lv lh ll lr)).mp o1 mk hmkmem
                refine ⟨?_, ?_, ihl mk o3, o4⟩
                · rw [All_iff]
                  intro x hx
                  obtain ⟨hxl, hxne⟩ := (mem_keys_erase (node lk lv lh ll lr) mk o3 x).mp hx
                  exact lt_of_le_of_ne (hmkmax o3 x hxl) hxne
                · rw [All_iff]
                  intro x hx
                  exact lt_trans hmkk ((All_iff (node rk rv rh2 rl rr)).mp o2 x hx)
      · rw [erase_gt hgt, Ordered_balance, Ordered_update_height]
        refine ⟨o1, ?_, o3, ihr key o4⟩
        rw [All_iff]
        intro x hx
        exact (All_iff r).mp o2 x ((mem_keys_erase r key o4 x).mp hx).1

end Ord

end Tree

end KeyValueAVL

namespace KeyValueAVL

namespace Tree

variable {K V : Type}

section Ord

variable [LinearOrder K]

/-- Case-unfolding of `find` at an equal key. -/
theorem find_found {k : K} {v : V} {h : Int} {l r : Tree K V} {key : K}
    (hkey : key = k) :
    find (node k v h l r) key = some (node k v h l r) := by
  simp only [find]
  rw [if_pos hkey]

/-- Case-unfolding of `find` below the node key. -/
theorem find_lt {k : K} {v : V} {h : Int} {l r : Tree K V} {key : K}
    (hlt : key < k) :
    find (node k v h l r) key = find l key := by
  simp only [find]
  rw [if_neg (ne_of_lt hlt), if_pos hlt]

/-- Case-unfolding of `find` above the node key. -/
theorem find_gt {k : K} {v : V} {h : Int} {l r : Tree K V} {key : K}
    (hgt : key > k) :
    find (node k v h l r) key = find r key := by
  simp only [find]
  rw [if_neg (ne_of_gt hgt), if_neg (not_lt.mpr (le_of_lt hgt))]

/-- On an ordered tree, `find` of an absent key returns the null pointer. -/
theorem find_eq_none (t : Tree K V) : ∀ (key : K), Ordered t →
    key ∉ keys t → find t key = none := by
  induction t with
  | nil => intro key _ _; rfl
  | node k v h l r ihl ihr =>
      intro key ho hmem
      obtain ⟨o1, o2, o3, o4⟩ := ho
      have hne : key ≠ k := by
        intro hE
        exact hmem (by
          rw [keys_node, hE]
          exact List.mem_append.mpr (Or.inr (List.mem_cons_self _ _)))
      rcases lt_or_gt_of_ne hne with hlt | hgt
      · rw [find_lt hlt]
        exact ihl key o3 (fun hx => hmem (by
          rw [keys_node]
          exact List.mem_append.mpr (Or.inl hx)))
      · rw [find_gt hgt]
        exact ihr key o4 (fun hx => hmem (by
          rw [keys_node]
          exact List.mem_append.mpr (Or.inr (List.mem_cons.mpr (Or.inr hx)))))

/-- On an ordered tree, `find` of a present pair returns the node that holds
that key and value. -/
theorem find_value (t : Tree K V) : ∀ (key : K) (v0 : V), Ordered t →
    (key, v0) ∈ inorder_traversal t →
    ∃ hh ll rr, find t key = some (node key v0 hh ll rr) := by
  induction t with
  | nil =>
      intro key v0 _ hmem
      simp [inorder_traversal] at hmem
  | node k v h l r ihl ihr =>
      intro key v0 ho hmem
      obtain ⟨o1, o2, o3, o4⟩ := ho
      rw [show inorder_traversal (node k v h l r) =
        inorder_traversal l ++ (k, v) :: inorder_traversal r from rfl] at hmem
      rcases List.mem_append.mp hmem with hm | hm
      · have hkey : key ∈ keys l := by
          have := List.mem_map_of_mem Prod.fst hm
          simpa [keys] using this
        have hlt : key < k := (All_iff l).mp o1 key hkey
        rw [find_lt hlt]
        exact ihl key v0 o3 hm
      · rcases List.mem_cons.mp hm with hm | hm
        · rw [Prod.ext_iff] at hm
          obtain ⟨h1, h2⟩ := hm
          subst h1
          subst h2
          exact ⟨h, l, r, find_found rfl⟩
        · have hkey : key ∈ keys r := by
            have := List.mem_map_of_mem Prod.fst hm
            simpa [keys] using this
          have hgt : k < key := (All_iff r).mp o2 key hkey
          rw [find_gt hgt]
          exact ihr key v0 o4 hm

/-- Inserting a key that is already present is a complete no-op on a tree
satisfying all three invariants. -/
theorem insert_noop (t : Tree K V) : ∀ (key : K) (val : V),
    HeightInv t → BalancedT t → Ordered t → key ∈ keys t →
    insert t key val = t := by
  induction t with
  | nil =>
      intro key val _ _ _ hmem
      simp [keys, inorder_traversal] at hmem
  | node k v h l r ihl ihr =>
      intro key val hi hb ho hmem
      obtain ⟨hh, hil, hir⟩ := hi
      rw [balancedT_node] at hb
      obtain ⟨hb1, hb2, hbl, hbr⟩ := hb
      obtain ⟨o1, o2, o3, o4⟩ := ho
      rcases lt_trichotomy key k with hlt | heq | hgt
      · have hkeyl : key ∈ keys l := by
          rw [keys_node] at hmem
          rcases List.mem_append.mp hmem with hx | hx
          · exact hx
          · rcases List.mem_cons.mp hx with rfl | hx
            · exact absurd hlt (lt_irrefl _)
            · exact absurd ((All_iff r).mp o2 key hx) (not_lt.mpr (le_of_lt hlt))
        rw [insert_lt hlt, ihl key val hil hbl o3 hkeyl, update_height_eq_self hh,
          balance_eq_self (show HeightInv (node k v h l r) from ⟨hh, hil, hir⟩)
            (by rw [balancedT_node]; exact ⟨hb1, hb2, hbl, hbr⟩)]
      · rw [insert_found (by simp [heq]) (by simp [heq])]
      · have hkeyr : key ∈ keys r := by
          rw [keys_node] at hmem
          rcases List.mem_append.mp hmem with hx | hx
          · exact absurd ((All_iff l).mp o1 key hx) (not_lt.mpr (le_of_lt hgt))
          · rcases List.mem_cons.mp hx with rfl | hx
            · exact absurd hgt (lt_irrefl _)
            · exact hx
        rw [insert_gt hgt, ihr key val hir hbr o4 hkeyr, update_height_eq_self hh,
          balance_eq_self (show HeightInv (node k v h l r) from ⟨hh, hil, hir⟩)
            (by rw [balancedT_node]; exact ⟨hb1, hb2, hbl, hbr⟩)]

/-- Erasing an absent key is a complete no-op on a tree satisfying all three
invariants. -/
theorem erase_noop (t : Tree K V) : ∀ (key : K),
    HeightInv t → BalancedT t → Ordered t → key ∉ keys t →
    erase t key = t := by
  induction t with
  | nil => intro key _ _ _ _; rfl
  | node k v h l r ihl ihr =>
      intro key hi hb ho hmem
      obtain ⟨hh, hil, hir⟩ := hi
      rw [balancedT_node] at hb
      obtain ⟨hb1, hb2, hbl, hbr⟩ := hb
      obtain ⟨o1, o2, o3, o4⟩ := ho
      have hne : key ≠ k := by
        intro hE
        exact hmem (by
          rw [keys_node, hE]
          exact List.mem_append.mpr (Or.inr (List.mem_cons_self _ _)))
      rcases lt_or_gt_of_ne hne with hlt | hgt
      · have hkeyl : key ∉ keys l := fun hx => hmem (by
          rw [keys_node]
          exact List.mem_append.mpr (Or.inl hx))
        rw [erase_lt hlt, ihl key hil hbl o3 hkeyl, update_height_eq_self hh,
          balance_eq_self (show HeightInv (node k v h l r) from ⟨hh, hil, hir⟩)
            (by rw [balancedT_node]; exact ⟨hb1, hb2, hbl, hbr⟩)]
      · have hkeyr : key ∉ keys r := fun hx => hmem (by
          rw [keys_node]
          exact List.mem_append.mpr (Or.inr (List.mem_cons.mpr (Or.inr hx))))
        rw [erase_gt hgt, ihr key hir hbr o4 hkeyr, update_height_eq_self hh,
          balance_eq_self (show HeightInv (node k v h l r) from ⟨hh, hil, hir⟩)
            (by rw [balancedT_node]; exact ⟨hb1, hb2, hbl, hbr⟩)]

end Ord

end Tree

end KeyValueAVL

namespace KeyValueAVL

namespace Tree

variable {K V : Type}

section Ord

variable [LinearOrder K]

/-- Loop invariant of `findClosest`: starting from a non-null candidate, the
loop returns a node whose key is the candidate's key or lies on the descent
path, and whose `abs (cmp key ·)` distance is minimal among the candidate and
all path keys. -/
theorem findClosestLoop_spec (cmp : K → K → Int) (key : K) :
    ∀ (t : Tree K V) (ak : K) (av : V) (ah : Int) (al ar : Tree K V),
    ∃ c ck, findClosestLoop cmp key t (some (node ak av ah al ar)) = some c ∧
      rootKey c = some ck ∧
      (ck = ak ∨ ck ∈ descentKeys key t) ∧
      |cmp key ck| ≤ |cmp key ak| ∧
      ∀ x ∈ descentKeys key t, |cmp key ck| ≤ |cmp key x| := by
  intro t
  induction t with
  | nil =>
      intro ak av ah al ar
      exact ⟨node ak av ah al ar, ak, rfl, rfl, Or.inl rfl, le_refl _,
        by simp [descentKeys]⟩
  | node k v h l r ihl ihr =>
      intro ak av ah al ar
      have hunf : findClosestLoop cmp key (node k v h l r) (some (node ak av ah al ar)) =
          (if key < k then
            findClosestLoop cmp key l
              (if |cmp key k| < |cmp key ak| then some (node k v h l r)
               else some (node ak av ah al ar))
          else if key > k then
            findClosestLoop cmp key r
              (if |cmp key k| < |cmp key ak| then some (node k v h l r)
               else some (node ak av ah al ar))
          else
            (if |cmp key k| < |cmp key ak| then some (node k v h l r)
             else some (node ak av ah al ar))) := rfl
      have hpath : descentKeys key (node k v h l r) =
          k :: (if key < k then descentKeys key l
                else if key > k then descentKeys key r
                else []) := rfl
      rcases lt_trichotomy key k with hlt | heq | hgt
      · rw [hunf, if_pos hlt, hpath, if_pos hlt]
        by_cases hcl : |cmp key k| < |cmp key ak|
        · rw [if_pos hcl]
          obtain ⟨c, ck, hres, hck, hmem, hle, hmin⟩ := ihl k v h l r
          refine ⟨c, ck, hres, hck, ?_, le_trans hle (le_of_lt hcl), ?_⟩
          · rcases hmem with rfl | hmem
            · exact Or.inr (List.mem_cons_self _ _)
            · exact Or.inr (List.mem_cons.mpr (Or.inr hmem))
          · intro x hx
            rcases List.mem_cons.mp hx with rfl | hx
            · exact hle
            · exact hmin x hx
        · rw [if_neg hcl]
          obtain ⟨c, ck, hres, hck, hmem, hle, hmin⟩ := ihl ak av ah al ar
          refine ⟨c, ck, hres, hck, ?_, hle, ?_⟩
          · rcases hmem with rfl | hmem
            · exact Or.inl rfl
            · exact Or.inr (List.mem_cons.mpr (Or.inr hmem))
          · intro x hx
            rcases List.mem_cons.mp hx with rfl | hx
            · exact le_trans hle (not_lt.mp hcl)
            · exact hmin x hx
      · have h1 : ¬ key < k := by simp [heq]
        have h2 : ¬ key > k := by simp [heq]
        rw [hunf, if_neg h1, if_neg h2, hpath, if_neg h1, if_neg h2]
        by_cases hcl : |cmp key k| < |cmp key ak|
        · rw [if_pos hcl]
          exact ⟨node k v h l r, k, rfl, rfl,
            Or.inr (List.mem_cons_self _ _), le_of_lt hcl, by
              intro x hx
              rcases List.mem_cons.mp hx with rfl | hx
              · exact le_refl _
              · exact absurd hx (List.not_mem_nil x)⟩
        · rw [if_neg hcl]
          exact ⟨node ak av ah al ar, ak, rfl, rfl, Or.inl rfl, le_refl _, by
            intro x hx
            rcases List.mem_cons.mp hx with rfl | hx
            · exact not_lt.mp hcl
            · exact absurd hx (List.not_mem_nil x)⟩
      · have h1 : ¬ key < k := not_lt.mpr (le_of_lt hgt)
        rw [hunf, if_neg h1, if_pos hgt, hpath, if_neg h1, if_pos hgt]
        by_cases hcl : |cmp key k| < |cmp key ak|
        · rw [if_pos hcl]
          obtain ⟨c, ck, hres, hck, hmem, hle, hmin⟩ := ihr k v h l r
          refine ⟨c, ck, hres, hck, ?_, le_trans hle (le_of_lt hcl), ?_⟩
          · rcases hmem with rfl | hmem
            · exact Or.inr (List.mem_cons_self _ _)
            · exact Or.inr (List.mem_cons.mpr (Or.inr hmem))
          · intro x hx
            rcases List.mem_cons.mp hx with rfl | hx
            · exact hle
            · exact hmin x hx
        · rw [if_neg hcl]
          obtain ⟨c, ck, hres, hck, hmem, hle, hmin⟩ := ihr ak av ah al ar
          refine ⟨c, ck, hres, hck, ?_, hle, ?_⟩
          · rcases hmem with rfl | hmem
            · exact Or.inl rfl
            · exact Or.inr (List.mem_cons.mpr (Or.inr hmem))
          · intro x hx
            rcases List.mem_cons.mp hx with rfl | hx
            · exact le_trans hle (not_lt.mp hcl)
            · exact hmin x hx

/-- `findClosest` on a non-empty tree returns a node whose key lies on the
descent path and minimises the `abs (cmp key ·)` distance over the path. -/
theorem findClosest_nonempty (cmp : K → K → Int) (key : K)
    (k : K) (v : V) (h : Int) (l r : Tree K V) :
    ∃ c ck, findClosest cmp (node k v h l r) key = some c ∧
      rootKey c = some ck ∧
      ck ∈ descentKeys key (node k v h l r) ∧
      ∀ x ∈ descentKeys key (node k v h l r), |cmp key ck| ≤ |cmp key x| := by
  have hunf : findClosest cmp (node k v h l r) key =
      (if key < k then findClosestLoop cmp key l (some (node k v h l r))
       else if key > k then findClosestLoop cmp key r (some (node k v h l r))
       else some (node k v h l r)) := rfl
  have hpath : descentKeys key (node k v h l r) =
      k :: (if key < k then descentKeys key l
            else if key > k then descentKeys key r
            else []) := rfl
  rcases lt_trichotomy key k with hlt | heq | hgt
  · rw [hunf, if_pos hlt, hpath, if_pos hlt]
    obtain ⟨c, ck, hres, hck, hmem, hle, hmin⟩ := findClosestLoop_spec cmp key l k v h l r
    refine ⟨c, ck, hres, hck, ?_, ?_⟩
    · rcases hmem with rfl | hmem
      · exact List.mem_cons_self _ _
      · exact List.mem_cons.mpr (Or.inr hmem)
    · intro x hx
      rcases List.mem_cons.mp hx with rfl | hx
      · exact hle
      · exact hmin x hx
  · have h1 : ¬ key < k := by simp [heq]
    have h2 : ¬ key > k := by simp [heq]
    rw [hunf, if_neg h1, if_neg h2, hpath, if_neg h1, if_neg h2]
    refine ⟨node k v h l r, k, rfl, rfl, List.mem_cons_self _ _, ?_⟩
    intro x hx
    rcases List.mem_cons.mp hx with rfl | hx
    · exact le_refl _
    · exact absurd hx (List.not_mem_nil x)
  · have h1 : ¬ key < k := not_lt.mpr (le_of_lt hgt)
    rw [hunf, if_neg h1, if_pos hgt, hpath, if_neg h1, if_pos hgt]
    obtain ⟨c, ck, hres, hck, hmem, hle, hmin⟩ := findClosestLoop_spec cmp key r k v h l r
    refine ⟨c, ck, hres, hck, ?_, ?_⟩
    · rcases hmem with rfl | hmem
      · exact List.mem_cons_self _ _
      · exact List.mem_cons.mpr (Or.inr hmem)
    · intro x hx
      rcases List.mem_cons.mp hx with rfl | hx
      · exact hle
      · exact hmin x hx

end Ord

end Tree

/-- Every state reachable from the empty tree by public insert/erase
operations satisfies all three structural invariants. -/
theorem applyOps_inv {K V : Type} [LinearOrder K] (ops : List (Op K V)) :
    Tree.HeightInv (applyOps ops) ∧ Tree.BalancedT (applyOps ops) ∧
      Tree.Ordered (applyOps ops) := by
  suffices h : ∀ (t : Tree K V), Tree.HeightInv t → Tree.BalancedT t →
      Tree.Ordered t →
      Tree.HeightInv (ops.foldl applyOp t) ∧ Tree.BalancedT (ops.foldl applyOp t) ∧
        Tree.Ordered (ops.foldl applyOp t) from
    h .nil trivial trivial trivial
  induction ops with
  | nil =>
      intro t h1 h2 h3
      exact ⟨h1, h2, h3⟩
  | cons op rest ih =>
      intro t h1 h2 h3
      show Tree.HeightInv (rest.foldl applyOp (applyOp t op)) ∧ _ ∧ _
      cases op with
      | insert k v =>
          obtain ⟨a1, a2, _, _⟩ := Tree.insert_spec t k v h1 h2
          exact ih _ a1 a2 (Tree.insert_ordered t k v h3)
      | erase k =>
          obtain ⟨a1, a2, _, _⟩ := Tree.erase_spec t k h1 h2
          exact ih _ a1 a2 (Tree.erase_ordered t k h3)

end KeyValueAVL

namespace Recommender

/-- A record of the book database (`struct Libro`); the C++ `float
average_rating` is modelled as an exact rational, which is faithful for the
parsing behaviour at issue (success versus thrown exception). -/
structure Libro where
  id : Int
  title : String
  author : String
  genre : String
  average_rating : Rat
  num_page : Int
  publication_date : String
  publisher : String
deriving DecidableEq

/-- `cleanString`: keeps only the decimal digits of the input string. -/
def cleanString (s : String) : String := String.mk (s.toList.filter Char.isDigit)

/-- Numeric value of a run of decimal digits. -/
def digitsToNat (cs : List Char) : Nat :=
  cs.foldl (fun a c => 10 * a + (c.toNat - 48)) 0

/-- `std::stoi` (base 10): skip leading whitespace, read an optional sign and
a non-empty digit run; with no digits it throws `std::invalid_argument`,
modelled as `.error`. -/
def stoi (s : String) : Except String Int :=
  let cs := s.toList.dropWhile Char.isWhitespace
  let sgn : Int := if cs.head? = some '-' then -1 else 1
  let cs2 := if cs.head? = some '-' ∨ cs.head? = some '+' then cs.tail else cs
  let ds := cs2.takeWhile Char.isDigit
  if ds.isEmpty then .error "stoi: no conversion"
  else .ok (sgn * digitsToNat ds)

/-- `std::stof` restricted to the plain decimal notation of the data file:
optional sign, integer digits, optional `.` and fraction digits; throws
(`.error`) when no digit is present.  Exponent notation is not modelled and
the value is an exact rational. -/
def stof (s : String) : Except String Rat :=
  let cs := s.toList.dropWhile Char.isWhitespace
  let sgn : Rat := if cs.head? = some '-' then -1 else 1
  let cs2 := if cs.head? = some '-' ∨ cs.head? = some '+' then cs.tail else cs
  let ds := cs2.takeWhile Char.isDigit
  let rest := cs2.drop ds.length
  let fs := if rest.head? = some '.' then rest.tail.takeWhile Char.isDigit else []
  if ds.isEmpty ∧ fs.isEmpty then .error "stof: no conversion"
  else .ok (sgn * ((digitsToNat ds : Rat) + (digitsToNat fs : Rat) / (10 : Rat) ^ fs.length))

/-- Successive `getline(ss, …, ',')` calls on one line yield its
comma-separated fields; after the stream is exhausted an extraction yields the
empty string (modelled by `getField`'s default). -/
def splitFields : List Char → List Char → List (List Char)
  | [], acc => [acc.reverse]
  | c :: rest, acc =>
      if c = ',' then acc.reverse :: splitFields rest []
      else splitFields rest (c :: acc)

/-- The `i`-th comma-separated field, empty when the line has too few. -/
def getField (fs : List (List Char)) (i : Nat) : String := String.mk (fs.getD i [])

/-- The body of the `while (getline(file, line))` loop of `loadDataIntoArray`:
parse the eight comma-separated fields of one line into a `Libro`, in source
order (id via `cleanString`/`stoi`, title, author, genre, rating via `stof`,
page count via `stoi`, publication date, publisher).  The `stoi`/`stof` calls
are not wrapped in any try/catch, so a parse failure propagates (`.error`). -/
def parseLibro (line : String) : Except String Libro := do
  let fs := splitFields line.toList []
  let idv ← stoi (cleanString (getField fs 0))
  let ratingv ← stof (getField fs 4)
  let pagev ← stoi (getField fs 5)
  pure { id := idv, title := getField fs 1, author := getField fs 2,
         genre := getField fs 3, average_rating := ratingv, num_page := pagev,
         publication_date := getField fs 6, publisher := getField fs 7 }

/-- `loadDataIntoArray` over the lines of an already-opened file: parses the
lines in order; the first malformed numeric field raises an exception that
propagates out of the loop uncaught (modelled as `.error`), so the routine
does not return normally and no further record is loaded. -/
def loadDataIntoArray : List String → Except String (List Libro)
  | [] => .ok []
  | line :: rest => do
      let libro ← parseLibro line
      let libros ← loadDataIntoArray rest
      pure (libro :: libros)

end Recommender

namespace KeyValueAVL

/-- C1: for every sequence of insert/erase operations applied to the initially
empty tree, after each operation (every prefix being itself such a sequence)
every node satisfies `|height(left) - height(right)| ≤ 1` on true subtree
heights (absent subtree = 0), and every cached `height` field equals
`1 + max` of its children's heights. -/
theorem claim_C1_balance_and_height_invariant {K V : Type} [LinearOrder K]
    (ops : List (Op K V)) :
    Tree.BalancedT (applyOps ops) ∧ Tree.HeightInv (applyOps ops) :=
  ⟨(applyOps_inv ops).2.1, (applyOps_inv ops).1⟩

/-- C2: every tree reachable from the empty tree by insert/erase operations is
BST-ordered: its inorder key sequence is strictly increasing, node-wise all
left-subtree keys are strictly below and all right-subtree keys strictly above
the node key, and no key occurs twice. -/
theorem claim_C2_bst_order_invariant {K V : Type} [LinearOrder K]
    (ops : List (Op K V)) :
    List.Pairwise (· < ·) (Tree.keys (applyOps ops)) ∧
    Tree.Ordered (applyOps ops) ∧
    (Tree.keys (applyOps ops)).Nodup := by
  have h := (applyOps_inv ops).2.2
  exact ⟨(Tree.ordered_iff_pairwise _).mp h, h,
    List.Pairwise.imp ne_of_lt ((Tree.ordered_iff_pairwise _).mp h)⟩

/-- Example trees used to instantiate the claim theorems at concrete inputs. -/
def exLeaf : Tree Int Int := Tree.node 5 10 1 .nil .nil

/-- A three-node tree with correct cached heights, used as a concrete input. -/
def exThree : Tree Int Int :=
  Tree.node 2 20 2 (Tree.node 1 10 1 .nil .nil) (Tree.node 3 30 1 .nil .nil)

/-- A right-right chain with correct cached heights and balance factor 2. -/
def exChain : Tree Int Int :=
  Tree.node 0 0 3 .nil (Tree.node 1 0 2 .nil (Tree.node 2 0 1 .nil .nil))

/-- C3: insert is first-write-wins on an invariant-satisfying tree: inserting
a fresh key with `v1` and then the same key with `v2` leaves `find` returning
the node holding `v1`; inserting an already-present key is a complete no-op;
and insert never changes which keys are present beyond the inserted one. -/
theorem claim_C3_first_write_wins {K V : Type} [LinearOrder K]
    (t : Tree K V) (key : K) (v1 v2 : V)
    (hi : Tree.HeightInv t) (hb : Tree.BalancedT t) (ho : Tree.Ordered t) :
    (key ∉ Tree.keys t →
      ∃ hh ll rr, Tree.find (Tree.insert (Tree.insert t key v1) key v2) key =
        some (Tree.node key v1 hh ll rr)) ∧
    (key ∈ Tree.keys t → Tree.insert t key v2 = t) ∧
    (∀ x, x ∈ Tree.keys (Tree.insert t key v2) ↔ x = key ∨ x ∈ Tree.keys t) := by
  refine ⟨?_, fun hmem => Tree.insert_noop t key v2 hi hb ho hmem,
    Tree.mem_keys_insert t key v2⟩
  intro hmem
  have ho1 : Tree.Ordered (Tree.insert t key v1) := Tree.insert_ordered t key v1 ho
  obtain ⟨hi1, hb1, _, _⟩ := Tree.insert_spec t key v1 hi hb
  have hkeymem : key ∈ Tree.keys (Tree.insert t key v1) :=
    (Tree.mem_keys_insert t key v1 key).mpr (Or.inl rfl)
  rw [Tree.insert_noop (Tree.insert t key v1) key v2 hi1 hb1 ho1 hkeymem]
  exact Tree.find_value (Tree.insert t key v1) key v1 ho1
    (Tree.pair_mem_insert t key v1 hmem)

theorem claim_C3_first_write_wins_witness :
    Tree.HeightInv exLeaf ∧ Tree.BalancedT exLeaf ∧ Tree.Ordered exLeaf ∧
    (((3 : Int) ∉ Tree.keys exLeaf →
      ∃ hh ll rr, Tree.find (Tree.insert (Tree.insert exLeaf 3 7) 3 8) 3 =
        some (Tree.node 3 7 hh ll rr)) ∧
    ((3 : Int) ∈ Tree.keys exLeaf → Tree.insert exLeaf 3 8 = exLeaf) ∧
    (∀ x, x ∈ Tree.keys (Tree.insert exLeaf 3 8) ↔ x = 3 ∨ x ∈ Tree.keys exLeaf)) :=
  ⟨by decide, by decide, by decide,
    claim_C3_first_write_wins exLeaf 3 7 8 (by decide) (by decide) (by decide)⟩

/-- C4: on an invariant-satisfying tree whose node for the erased key has two
children, `erase` copies the key and value of the left subtree's maximum node
(the in-order predecessor, whose key dominates every left-subtree key) into
the located node and recursively erases that key from the left subtree,
reducing to the one-child case instead of deleting the two-child node
directly; and the resulting key set is the old key set minus the erased key. -/
theorem claim_C4_two_child_erase {K V : Type} [LinearOrder K]
    (k : K) (v : V) (h : Int) (l r : Tree K V) (key : K)
    (hkey : key = k) (hl : l ≠ .nil) (hr : r ≠ .nil) :
    (∃ mk mv mh ml, Tree.find_max l = .ok (.node mk mv mh ml .nil) ∧
      (Tree.Ordered (Tree.node k v h l r) → ∀ x ∈ Tree.keys l, x ≤ mk) ∧
      Tree.erase (Tree.node k v h l r) key =
        Tree.balance (Tree.update_height
          (Tree.node mk mv h (Tree.erase l mk) r))) ∧
    (Tree.Ordered (Tree.node k v h l r) →
      ∀ x, x ∈ Tree.keys (Tree.erase (Tree.node k v h l r) key) ↔
        (x ∈ Tree.keys (Tree.node k v h l r) ∧ x ≠ key)) := by
  subst hkey
  cases l with
  | nil => exact absurd rfl hl
  | node lk lv lh ll lr =>
      cases r with
      | nil => exact absurd rfl hr
      | node rk rv rh2 rl rr =>
          obtain ⟨mk, mv, mh, ml, hfm, hmem, hmax⟩ :=
            Tree.find_max_spec (Tree.node lk lv lh ll lr) (by simp)
          refine ⟨⟨mk, mv, mh, ml, hfm, ?_, ?_⟩, ?_⟩
          · rintro ⟨o1, o2, o3, o4⟩
            exact hmax o3
          · exact Tree.erase_found_two lk lv lh ll lr rk rv rh2 rl rr
              (by simp) (by simp) hfm
          · intro ho
            exact Tree.mem_keys_erase
              (Tree.node key v h (Tree.node lk lv lh ll lr) (Tree.node rk rv rh2 rl rr))
              key ho

theorem claim_C4_two_child_erase_witness :
    ((2 : Int) = 2) ∧
    ((Tree.node 1 10 1 .nil .nil : Tree Int Int) ≠ .nil) ∧
    ((Tree.node 3 30 1 .nil .nil : Tree Int Int) ≠ .nil) ∧
    ((∃ mk mv mh ml,
        Tree.find_max (Tree.node 1 10 1 .nil .nil : Tree Int Int) =
          .ok (.node mk mv mh ml .nil) ∧
        (Tree.Ordered exThree →
          ∀ x ∈ Tree.keys (Tree.node 1 10 1 .nil .nil : Tree Int Int), x ≤ mk) ∧
        Tree.erase exThree 2 =
          Tree.balance (Tree.update_height
            (Tree.node mk mv 2 (Tree.erase (Tree.node 1 10 1 .nil .nil) mk)
              (Tree.node 3 30 1 .nil .nil)))) ∧
      (Tree.Ordered exThree →
        ∀ x, x ∈ Tree.keys (Tree.erase exThree 2) ↔
          (x ∈ Tree.keys exThree ∧ x ≠ 2))) :=
  ⟨rfl, by decide, by decide,
    claim_C4_two_child_erase 2 20 2 (Tree.node 1 10 1 .nil .nil : Tree Int Int)
      (Tree.node 3 30 1 .nil .nil) 2 rfl (by decide) (by decide)⟩

/-- C5: `find_min` / `find_max` on the empty tree fail with the distinct
catchable `std::out_of_range("The tree is empty.")` condition instead of
dereferencing a null node; on a non-empty ordered tree they return the node
reached by leftmost (resp. rightmost) descent — a node with a null left
(resp. right) child — whose key is the minimum (resp. maximum) key present.
Both are `const` and, being pure here, leave the tree unchanged. -/
theorem claim_C5_find_min_max {K V : Type} [LinearOrder K]
    (t : Tree K V) (hne : t ≠ .nil) (ho : Tree.Ordered t) :
    Tree.find_min (.nil : Tree K V) = .error "The tree is empty." ∧
    Tree.find_max (.nil : Tree K V) = .error "The tree is empty." ∧
    (∃ mk mv mh mr, Tree.find_min t = .ok (.node mk mv mh .nil mr) ∧
      mk ∈ Tree.keys t ∧ ∀ x ∈ Tree.keys t, mk ≤ x) ∧
    (∃ mk mv mh ml, Tree.find_max t = .ok (.node mk mv mh ml .nil) ∧
      mk ∈ Tree.keys t ∧ ∀ x ∈ Tree.keys t, x ≤ mk) := by
  refine ⟨rfl, rfl, ?_, ?_⟩
  · obtain ⟨mk, mv, mh, mr, hfm, hmem, hmin⟩ := Tree.find_min_spec t hne
    exact ⟨mk, mv, mh, mr, hfm, hmem, hmin ho⟩
  · obtain ⟨mk, mv, mh, ml, hfm, hmem, hmax⟩ := Tree.find_max_spec t hne
    exact ⟨mk, mv, mh, ml, hfm, hmem, hmax ho⟩

theorem claim_C5_find_min_max_witness :
    (exThree ≠ .nil) ∧ Tree.Ordered exThree ∧
    (Tree.find_min (.nil : Tree Int Int) = .error "The tree is empty." ∧
     Tree.find_max (.nil : Tree Int Int) = .error "The tree is empty." ∧
     (∃ mk mv mh mr, Tree.find_min exThree = .ok (.node mk mv mh .nil mr) ∧
        mk ∈ Tree.keys exThree ∧ ∀ x ∈ Tree.keys exThree, mk ≤ x) ∧
     (∃ mk mv mh ml, Tree.find_max exThree = .ok (.node mk mv mh ml .nil) ∧
        mk ∈ Tree.keys exThree ∧ ∀ x ∈ Tree.keys exThree, x ≤ mk)) :=
  ⟨by decide, by decide,
    claim_C5_find_min_max exThree (by decide) (by decide)⟩

/-- C6: on an invariant-satisfying tree, `find` of an absent key returns the
null pointer (not an error) and `erase` of an absent key returns normally with
the tree literally unchanged (same keys, values, structure and cached
heights). -/
theorem claim_C6_absent_key_no_error {K V : Type} [LinearOrder K]
    (t : Tree K V) (key : K)
    (hi : Tree.HeightInv t) (hb : Tree.BalancedT t) (ho : Tree.Ordered t)
    (habs : key ∉ Tree.keys t) :
    Tree.find t key = none ∧ Tree.erase t key = t :=
  ⟨Tree.find_eq_none t key ho habs, Tree.erase_noop t key hi hb ho habs⟩

theorem claim_C6_absent_key_no_error_witness :
    Tree.HeightInv exThree ∧ Tree.BalancedT exThree ∧ Tree.Ordered exThree ∧
    ((7 : Int) ∉ Tree.keys exThree) ∧
    (Tree.find exThree 7 = none ∧ Tree.erase exThree 7 = exThree) :=
  ⟨by decide, by decide, by decide, by decide,
    claim_C6_absent_key_no_error exThree 7
      (by decide) (by decide) (by decide) (by decide)⟩

/-- C7: `findClosest` returns an absent result exactly when the tree is empty;
on a non-empty tree it returns a node from the comparison-descent path whose
key minimises `abs (cmp key ·)` over the visited path keys, and when the
descent reaches an exact match (so that `key` is on the path) the returned
node is that exact-key node. -/
theorem claim_C7_findClosest {K V : Type} [LinearOrder K]
    (cmp : K → K → Int) (t : Tree K V) (key : K)
    (hcmp : ∀ a b, cmp a b = 0 ↔ a = b) :
    (Tree.findClosest cmp t key = none ↔ t = .nil) ∧
    (t ≠ .nil → ∃ c ck, Tree.findClosest cmp t key = some c ∧
      Tree.rootKey c = some ck ∧
      ck ∈ Tree.descentKeys key t ∧
      (∀ x ∈ Tree.descentKeys key t, |cmp key ck| ≤ |cmp key x|) ∧
      (key ∈ Tree.descentKeys key t → ck = key)) := by
  cases t with
  | nil =>
      exact ⟨by simp [Tree.findClosest, Tree.findClosestLoop],
        fun hne => absurd rfl hne⟩
  | node k v h l r =>
      obtain ⟨c, ck, hres, hck, hmem, hmin⟩ :=
        Tree.findClosest_nonempty cmp key k v h l r
      constructor
      · constructor
        · intro hE
          rw [hres] at hE
          exact absurd hE (by simp)
        · intro hE
          exact absurd hE (by simp)
      · intro _
        refine ⟨c, ck, hres, hck, hmem, hmin, ?_⟩
        intro hkey
        have h0 : |cmp key ck| ≤ |cmp key key| := hmin key hkey
        have hz : cmp key key = 0 := (hcmp key key).mpr rfl
        rw [hz] at h0
        have habs : |cmp key ck| = 0 :=
          le_antisymm (by simpa using h0) (abs_nonneg _)
        exact ((hcmp key ck).mp (abs_eq_zero.mp habs)).symm

theorem claim_C7_findClosest_witness :
    (∀ a b : Int, a - b = 0 ↔ a = b) ∧
    ((Tree.findClosest (fun a b => a - b) exLeaf 3 = none ↔ exLeaf = .nil) ∧
    (exLeaf ≠ .nil →
      ∃ c ck, Tree.findClosest (fun a b => a - b) exLeaf 3 = some c ∧
        Tree.rootKey c = some ck ∧
        ck ∈ Tree.descentKeys 3 exLeaf ∧
        (∀ x ∈ Tree.descentKeys 3 exLeaf, |(3 : Int) - ck| ≤ |(3 : Int) - x|) ∧
        ((3 : Int) ∈ Tree.descentKeys 3 exLeaf → ck = 3))) :=
  ⟨fun _ _ => sub_eq_zero,
    claim_C7_findClosest (fun a b => a - b) exLeaf 3 (fun _ _ => sub_eq_zero)⟩

/-- C8: `balance` uses exactly the non-strict tie-breaks of the source: on
balance factor 2 a single left rotation when the right child's factor is
`≥ 0` and the right-left double rotation otherwise; mirror for -2 with `≤ 0`
on the left child; any node with balance factor in [-1, 1] is returned
unchanged. -/
theorem claim_C8_rebalance_tie_breaks {K V : Type} (t : Tree K V) :
    (Tree.calculate_balance_factor t = 2 →
      (Tree.calculate_balance_factor t.right ≥ 0 →
        Tree.balance t = Tree.rotate_left t) ∧
      (Tree.calculate_balance_factor t.right < 0 →
        Tree.balance t = Tree.rotate_right_left t)) ∧
    (Tree.calculate_balance_factor t = -2 →
      (Tree.calculate_balance_factor t.left ≤ 0 →
        Tree.balance t = Tree.rotate_right t) ∧
      (0 < Tree.calculate_balance_factor t.left →
        Tree.balance t = Tree.rotate_left_right t)) ∧
    (-1 ≤ Tree.calculate_balance_factor t → Tree.calculate_balance_factor t ≤ 1 →
      Tree.balance t = t) := by
  unfold Tree.balance
  refine ⟨?_, ?_, ?_⟩
  · intro h2
    rw [if_pos h2]
    constructor
    · intro hc
      rw [if_pos hc]
    · intro hc
      rw [if_neg (not_le.mpr hc)]
  · intro hm2
    rw [if_neg (by omega), if_pos hm2]
    constructor
    · intro hc
      rw [if_pos hc]
    · intro hc
      rw [if_neg (not_le.mpr hc)]
  · intro ha hb
    rw [if_neg (by omega), if_neg (by omega)]

theorem claim_C8_rebalance_tie_breaks_witness :
    (Tree.calculate_balance_factor exChain = 2) ∧
    (Tree.balance exChain = Tree.rotate_left exChain) ∧
    (Tree.balance exLeaf = exLeaf) :=
  ⟨by decide,
    ((claim_C8_rebalance_tie_breaks exChain).1 (by decide)).1 (by decide),
    (claim_C8_rebalance_tie_breaks exLeaf).2.2 (by decide) (by decide)⟩

/-- C9: evaluation of the record loader.  A line whose id field has no digit
(`"abc"` cleans to the empty string) makes `stoi` throw, and a line whose
rating field is non-numeric makes `stof` throw; in both cases loading does not
return normally — the exception propagates out of `loadDataIntoArray`
uncaught (in `main` the call is outside any try/catch, so the program
terminates) and no record of the line reaches the caller.  A well-formed line
parses into the expected record.  This contradicts the spec's requirement to
report the error and return normally. -/
theorem claim_C9_loader_on_malformed_line :
    Recommender.loadDataIntoArray ["abc,T,A,G,x,y,z,P"] =
      .error "stoi: no conversion" ∧
    Recommender.loadDataIntoArray ["12,T,A,G,bad,10,2000,P"] =
      .error "stof: no conversion" ∧
    (∃ libro, Recommender.loadDataIntoArray ["1,T,A,G,4.5,100,2000-01-01,P"] =
        .ok [libro] ∧
      libro.id = 1 ∧ libro.title = "T" ∧ libro.author = "A" ∧
      libro.genre = "G" ∧ libro.num_page = 100 ∧
      libro.publication_date = "2000-01-01" ∧ libro.publisher = "P") :=
  ⟨rfl, rfl, ⟨_, rfl, rfl, rfl, rfl, rfl, rfl, rfl, rfl⟩⟩

/-- C10: the public root-installing constructor stores its argument with no
validation or rebalancing, so a suitable argument produces a tree violating
the AVL balance invariant, the cached-height invariant and the BST order
invariant; the invariants are only guaranteed for trees built from empty via
insert/erase (claims C1/C2). -/
theorem claim_C10_unchecked_root_constructor :
    (∀ (r : Tree Int Int), mkTreeWithRoot r = r) ∧
    ¬ Tree.BalancedT (mkTreeWithRoot (Tree.node 1 0 1
        (Tree.node 2 0 1 (Tree.node 3 0 1 .nil .nil) .nil) .nil : Tree Int Int)) ∧
    ¬ Tree.HeightInv (mkTreeWithRoot (Tree.node 1 0 1
        (Tree.node 2 0 1 (Tree.node 3 0 1 .nil .nil) .nil) .nil : Tree Int Int)) ∧
    ¬ Tree.Ordered (mkTreeWithRoot (Tree.node 1 0 1
        (Tree.node 2 0 1 (Tree.node 3 0 1 .nil .nil) .nil) .nil : Tree Int Int)) :=
  ⟨fun _ => rfl, by decide, by decide, by decide⟩

end KeyValueAVL
